import Mathlib

/-!
# Verification of the chunked LLM-analysis pipeline in `feature_analyzer.py`

Shallow embedding of the class `FeatureAnalyzer` from `src/feature_analyzer.py`.
Python strings are modelled as `List Char`; Python `dict`s coming from
`json.loads` are modelled as association lists with *last-occurrence-wins*
lookup (matching how duplicate keys behave when a Python dict is built);
the `combined_analysis` dict owned by the driver is an association list with
unique keys.  Chunk classification responses (the output of the LLM call
followed by `json.loads`) are modelled by an oracle function supplied as a
parameter; `none` stands for a response that is not parsable as JSON.
-/

/-! ## Python string helpers -/

/-- Whitespace as stripped by Python `str.strip()` (ASCII range; the inputs
relevant to the analyzer's length-threshold check are ASCII). -/
def isPySpace (c : Char) : Bool :=
  c = ' ' || c = '\t' || c = '\n' || c = '\r' || c = '\x0b' || c = '\x0c'

/-- Python `str.strip()`: drop whitespace from both ends. -/
def pyStrip (s : List Char) : List Char :=
  ((s.dropWhile isPySpace).reverse.dropWhile isPySpace).reverse

/-- Python `str.lower()` (ASCII behaviour). -/
def pyLower (s : List Char) : List Char :=
  s.map Char.toLower

/-- Python `s.split('\n')`: separator-based splitting.  Always returns a
non-empty list; on the empty string it returns `[""]`, exactly as Python's
`"".split('\n') == ['']`. -/
def splitLines : List Char → List (List Char)
  | [] => [[]]
  | c :: cs =>
    if c = '\n' then [] :: splitLines cs
    else
      match splitLines cs with
      | [] => [[c]]
      | l :: ls => (c :: l) :: ls

/-- Python `'\n'.join(parts)`. -/
def joinLines : List (List Char) → List Char
  | [] => []
  | [l] => l
  | l :: l' :: ls => l ++ '\n' :: joinLines (l' :: ls)

/-- `startsWith s p` is Python `s.startswith(p)`. -/
def startsWith : List Char → List Char → Bool
  | _, [] => true
  | [], _ :: _ => false
  | c :: cs, p :: ps => c = p && startsWith cs ps

/-- Python substring test `needle in hay` for strings. -/
def containsSub (needle : List Char) : List Char → Bool
  | [] => startsWith [] needle
  | c :: rest => startsWith (c :: rest) needle || containsSub needle rest

/-! ## The chunker: `FeatureAnalyzer.chunk_code_by_files` (lines 54-85) -/

/-- The file-header marker `'=' * 48` tested by `line.startswith('=' * 48)`. -/
def headerMarker : List Char := List.replicate 48 '='

/-- `line.startswith('=' * 48)`. -/
def isHeaderLine (line : List Char) : Bool := startsWith line headerMarker

/-- Total length of the lines of a group, newline separators excluded:
this is exactly the quantity the Python loop tracks in `current_size`
(`current_size += line_size` counts only `len(line)`). -/
def sumLen (g : List (List Char)) : Nat := (g.map List.length).sum

/-- The loop of `chunk_code_by_files`, lines 62-78.  One iteration of the
Python loop does, in order: (1) if `current_size + line_size > chunk_size`
and the running chunk is non-empty, emit the running chunk and reset;
(2) append the line and add its length; (3) if the line starts with the
header marker and `current_size > chunk_size / 2` (true division: modelled
as `2 * current_size > chunk_size`), emit the running chunk and reset.
The two paths through step (1) are written out explicitly below, with
steps (2)-(3) inlined in each. -/
def chunkLoop (chunkSize : Nat) (currentChunk : List (List Char)) (currentSize : Nat) :
    List (List Char) → List (List Char)
  | [] => if currentChunk = [] then [] else [joinLines currentChunk]
  | line :: rest =>
    if currentSize + line.length > chunkSize ∧ currentChunk ≠ [] then
      joinLines currentChunk ::
        (if isHeaderLine line ∧ 2 * line.length > chunkSize then
          joinLines [line] :: chunkLoop chunkSize [] 0 rest
        else
          chunkLoop chunkSize [line] line.length rest)
    else
      if isHeaderLine line ∧ 2 * (currentSize + line.length) > chunkSize then
        joinLines (currentChunk ++ [line]) :: chunkLoop chunkSize [] 0 rest
      else
        chunkLoop chunkSize (currentChunk ++ [line]) (currentSize + line.length) rest

/-- `self.chunk_size` as set in `FeatureAnalyzer.__init__` (line 23). -/
def chunk_size : Nat := 12000

/-- `FeatureAnalyzer.chunk_code_by_files` (lines 54-85): split the text on
newlines and run the accumulation loop starting from an empty chunk. -/
def chunk_code_by_files (chunkSize : Nat) (text : List Char) : List (List Char) :=
  chunkLoop chunkSize [] 0 (splitLines text)

/-- Length of the longest line of the input. -/
def maxLineLen (text : List Char) : Nat :=
  ((splitLines text).map List.length).foldr Nat.max 0

/-- The same accumulation loop, recording each emitted chunk as its list of
lines instead of the joined string (proof device: `chunkLoop` is the
composition of this with `joinLines`). -/
def chunkGroups (chunkSize : Nat) (currentChunk : List (List Char)) (currentSize : Nat) :
    List (List Char) → List (List (List Char))
  | [] => if currentChunk = [] then [] else [currentChunk]
  | line :: rest =>
    if currentSize + line.length > chunkSize ∧ currentChunk ≠ [] then
      currentChunk ::
        (if isHeaderLine line ∧ 2 * line.length > chunkSize then
          [line] :: chunkGroups chunkSize [] 0 rest
        else
          chunkGroups chunkSize [line] line.length rest)
    else
      if isHeaderLine line ∧ 2 * (currentSize + line.length) > chunkSize then
        (currentChunk ++ [line]) :: chunkGroups chunkSize [] 0 rest
      else
        chunkGroups chunkSize (currentChunk ++ [line]) (currentSize + line.length) rest

/-! ### Basic facts about splitting and joining -/

theorem splitLines_ne_nil (s : List Char) : splitLines s ≠ [] := by
  cases s with
  | nil => simp [splitLines]
  | cons c cs =>
    simp only [splitLines]
    split
    · simp
    · split
      · simp
      · simp

theorem joinLines_cons (l : List Char) (ls : List (List Char)) (h : ls ≠ []) :
    joinLines (l :: ls) = l ++ '\n' :: joinLines ls := by
  cases ls with
  | nil => exact absurd rfl h
  | cons l' ls' => rfl

/-- Round trip: `'\n'.join(s.split('\n')) == s`. -/
theorem joinLines_splitLines (s : List Char) : joinLines (splitLines s) = s := by
  induction s with
  | nil => rfl
  | cons c cs ih =>
    simp only [splitLines]
    by_cases h : c = '\n'
    · subst h
      rw [if_pos rfl, joinLines_cons _ _ (splitLines_ne_nil cs), ih]
      rfl
    · rw [if_neg h]
      cases hsc : splitLines cs with
      | nil => exact absurd hsc (splitLines_ne_nil cs)
      | cons l ls =>
        rw [hsc] at ih
        cases ls with
        | nil =>
          simp only [joinLines] at ih ⊢
          rw [ih]
        | cons l' ls' =>
          simp only [joinLines] at ih ⊢
          rw [List.cons_append, ih]

theorem joinLines_append (a b : List (List Char)) (ha : a ≠ []) (hb : b ≠ []) :
    joinLines (a ++ b) = joinLines a ++ '\n' :: joinLines b := by
  induction a with
  | nil => exact absurd rfl ha
  | cons x xs ih =>
    cases hxs : xs with
    | nil =>
      simp only [List.cons_append, List.nil_append]
      rw [joinLines_cons _ _ hb]
      rfl
    | cons y ys =>
      rw [hxs] at ih
      rw [List.cons_append, joinLines_cons _ _ (by simp),
        joinLines_cons _ _ (by simp [hxs]), ih (by simp), List.append_assoc]
      rfl

theorem joinLines_map_flatten (gs : List (List (List Char))) (h : ∀ g ∈ gs, g ≠ []) :
    joinLines (gs.map joinLines) = joinLines gs.flatten := by
  induction gs with
  | nil => rfl
  | cons g rest ih =>
    cases rest with
    | nil => simp [joinLines]
    | cons g' rs =>
      have hg : g ≠ [] := h g (by simp)
      have hg' : g' ≠ [] := h g' (by simp)
      have hflat : (g' :: rs).flatten ≠ [] := by
        rw [List.flatten_cons]
        cases g' with
        | nil => exact absurd rfl hg'
        | cons a as => simp
      rw [List.map_cons, joinLines_cons _ _ (by simp), List.flatten_cons,
        joinLines_append g (g' :: rs).flatten hg hflat,
        ih (fun x hx => h x (List.mem_cons_of_mem _ hx))]

/-! ### The chunk loop through the groups view -/

theorem chunkLoop_eq_map (cs : Nat) (lines : List (List Char)) :
    ∀ cur sz, chunkLoop cs cur sz lines = (chunkGroups cs cur sz lines).map joinLines := by
  induction lines with
  | nil =>
    intro cur sz
    by_cases h : cur = [] <;> simp [chunkLoop, chunkGroups, h]
  | cons line rest ih =>
    intro cur sz
    by_cases h1 : sz + line.length > cs ∧ cur ≠ []
    · by_cases h2 : isHeaderLine line = true ∧ 2 * line.length > cs <;>
        simp [chunkLoop, chunkGroups, h1, h2, ih]
    · by_cases h2 : isHeaderLine line = true ∧ 2 * (sz + line.length) > cs <;>
        simp [chunkLoop, chunkGroups, h1, h2, ih]

theorem chunkGroups_flatten (cs : Nat) (lines : List (List Char)) :
    ∀ cur sz, (chunkGroups cs cur sz lines).flatten = cur ++ lines := by
  induction lines with
  | nil =>
    intro cur sz
    by_cases h : cur = [] <;> simp [chunkGroups, h]
  | cons line rest ih =>
    intro cur sz
    by_cases h1 : sz + line.length > cs ∧ cur ≠ []
    · by_cases h2 : isHeaderLine line = true ∧ 2 * line.length > cs <;>
        simp [chunkGroups, h1, h2, ih]
    · by_cases h2 : isHeaderLine line = true ∧ 2 * (sz + line.length) > cs <;>
        simp [chunkGroups, h1, h2, ih]

theorem chunkGroups_ne_nil (cs : Nat) (lines : List (List Char)) :
    ∀ cur sz g, g ∈ chunkGroups cs cur sz lines → g ≠ [] := by
  induction lines with
  | nil =>
    intro cur sz g hg
    by_cases h : cur = []
    · simp [chunkGroups, h] at hg
    · simp only [chunkGroups, if_neg h, List.mem_singleton] at hg
      exact hg ▸ h
  | cons line rest ih =>
    intro cur sz g hg
    by_cases h1 : sz + line.length > cs ∧ cur ≠ []
    · rw [chunkGroups, if_pos h1] at hg
      rcases List.mem_cons.1 hg with hcur | htail
      · exact hcur ▸ h1.2
      · by_cases h2 : isHeaderLine line = true ∧ 2 * line.length > cs
        · rw [if_pos h2] at htail
          rcases List.mem_cons.1 htail with hline | hrec
          · simp [hline]
          · exact ih [] 0 g hrec
        · rw [if_neg h2] at htail
          exact ih [line] line.length g htail
    · rw [chunkGroups, if_neg h1] at hg
      by_cases h2 : isHeaderLine line = true ∧ 2 * (sz + line.length) > cs
      · rw [if_pos h2] at hg
        rcases List.mem_cons.1 hg with hcur | hrec
        · simp [hcur]
        · exact ih [] 0 g hrec
      · rw [if_neg h2] at hg
        exact ih (cur ++ [line]) (sz + line.length) g hg

/-- C4 at an arbitrary chunk size: rejoining all emitted chunks with the
newline separator reconstructs the input text. -/
theorem chunk_code_by_files_lossless (chunkSize : Nat) (text : List Char) :
    joinLines (chunk_code_by_files chunkSize text) = text := by
  rw [chunk_code_by_files, chunkLoop_eq_map,
    joinLines_map_flatten _ (fun g hg => chunkGroups_ne_nil chunkSize (splitLines text) [] 0 g hg),
    chunkGroups_flatten, List.nil_append, joinLines_splitLines]

/-- C4: For every input text, joining the chunks returned by
`chunk_code_by_files` with the newline separator, in their emitted order,
reconstructs the input text exactly (chunking is lossless). -/
theorem c4_chunking_lossless (text : List Char) :
    joinLines (chunk_code_by_files chunk_size text) = text :=
  chunk_code_by_files_lossless chunk_size text

/-! ### C8: behaviour on the empty input -/

/-- C8 counterexample: `chunk_code_by_files` applied to the empty string does
NOT return the empty sequence of chunks — Python's `''.split('\n')` is
`['']`, the single empty line is accumulated, and the final flush emits it,
so the result is the one-element sequence containing the empty chunk. -/
theorem c8_counterexample :
    chunk_code_by_files chunk_size [] ≠ [] ∧
      chunk_code_by_files chunk_size [] = [[]] := by
  constructor
  · decide
  · decide

/-- C8 amended: `chunk_code_by_files` applied to the empty string returns the
one-element sequence whose only chunk is the empty string. -/
theorem c8_amended : chunk_code_by_files chunk_size [] = [[]] := by
  decide

/-! ### C5: the size bound

`current_size` counts only the characters of the accumulated lines, never
the newline separators re-inserted by `'\n'.join`, so a chunk made of many
short lines can exceed the claimed bound by the number of its lines.  The
extreme case: an input consisting solely of newline characters has lines of
length 0 only, the size counter stays at 0 forever, and the whole input is
emitted as one chunk of length far above the limit. -/

theorem splitLines_replicate_newline (n : Nat) :
    splitLines (List.replicate n '\n') = List.replicate (n + 1) [] := by
  induction n with
  | zero => rfl
  | succ k ih =>
    show [] :: splitLines (List.replicate k '\n') = _
    rw [ih, List.replicate_succ (n := k + 1)]

theorem chunkLoop_empty_lines (m : Nat) : ∀ cur : List (List Char),
    chunkLoop chunk_size cur 0 (List.replicate (m + 1) []) =
      [joinLines (cur ++ List.replicate (m + 1) [])] := by
  induction m with
  | zero =>
    intro cur
    show (if cur ++ [[]] = ([] : List (List Char)) then ([] : List (List Char))
        else [joinLines (cur ++ [[]])]) = [joinLines (cur ++ List.replicate 1 [])]
    rw [if_neg (by simp : (cur ++ [[]] : List (List Char)) ≠ [])]
    rfl
  | succ k ih =>
    intro cur
    have step : chunkLoop chunk_size cur 0 (List.replicate (k + 1 + 1) []) =
        chunkLoop chunk_size (cur ++ [[]]) 0 (List.replicate (k + 1) []) := rfl
    rw [step, ih (cur ++ [[]]), List.append_assoc, List.singleton_append,
      ← List.replicate_succ]

theorem joinLines_replicate_nil (n : Nat) :
    joinLines (List.replicate (n + 1) []) = List.replicate n '\n' := by
  induction n with
  | zero => rfl
  | succ k ih =>
    rw [List.replicate_succ, joinLines_cons _ _ (by simp), ih,
      List.nil_append, List.replicate_succ]

/-- C5 counterexample: on the input consisting of 12001 newline characters
(12002 empty lines), `chunk_code_by_files` emits the entire input as a
single chunk of length 12001, even though every line of the input has
length 0, so the claimed bound `chunk_size + (length of one line)` = 12000
is exceeded. -/
theorem c5_counterexample :
    List.replicate 12001 '\n' ∈
        chunk_code_by_files chunk_size (List.replicate 12001 '\n') ∧
      ∀ l ∈ splitLines (List.replicate 12001 '\n'),
        chunk_size + l.length < (List.replicate 12001 '\n').length := by
  constructor
  · rw [chunk_code_by_files, splitLines_replicate_newline, chunkLoop_empty_lines,
      List.nil_append, joinLines_replicate_nil]
    exact List.mem_singleton.mpr rfl
  · rw [splitLines_replicate_newline]
    intro l hl
    have hl' : l = [] := List.eq_of_mem_replicate hl
    subst hl'
    show chunk_size + ([] : List Char).length < (List.replicate 12001 '\n').length
    rw [List.length_replicate, List.length_nil, Nat.add_zero]
    norm_num [chunk_size]

theorem chunkGroups_bound (cs : Nat) (L : List (List Char)) (lines : List (List Char)) :
    ∀ cur sz, (∀ l ∈ cur, l ∈ L) → (∀ l ∈ lines, l ∈ L) → sz = sumLen cur →
      (sumLen cur ≤ cs ∨ ∃ l ∈ L, cur = [l]) →
      ∀ g ∈ chunkGroups cs cur sz lines,
        (∀ l ∈ g, l ∈ L) ∧ (sumLen g ≤ cs ∨ ∃ l ∈ L, g = [l]) := by
  induction lines with
  | nil =>
    intro cur sz hcur _hlines _hsz hinv g hg
    by_cases h : cur = []
    · simp [chunkGroups, h] at hg
    · simp only [chunkGroups, if_neg h, List.mem_singleton] at hg
      exact hg ▸ ⟨hcur, hinv⟩
  | cons line rest ih =>
    intro cur sz hcur hlines hsz hinv g hg
    have hline : line ∈ L := hlines line (by simp)
    have hrest : ∀ l ∈ rest, l ∈ L := fun l hl => hlines l (List.mem_cons_of_mem _ hl)
    by_cases h1 : sz + line.length > cs ∧ cur ≠ []
    · rw [chunkGroups, if_pos h1] at hg
      rcases List.mem_cons.1 hg with hgcur | htail
      · exact hgcur ▸ ⟨hcur, hinv⟩
      · by_cases h2 : isHeaderLine line = true ∧ 2 * line.length > cs
        · rw [if_pos h2] at htail
          rcases List.mem_cons.1 htail with hgl | hrec
          · refine hgl ▸ ⟨?_, Or.inr ⟨line, hline, rfl⟩⟩
            intro l hl
            rw [List.mem_singleton] at hl
            exact hl ▸ hline
          · exact ih [] 0 (by simp) hrest (by simp [sumLen]) (Or.inl (by simp [sumLen])) g hrec
        · rw [if_neg h2] at htail
          refine ih [line] line.length ?_ hrest (by simp [sumLen]) (Or.inr ⟨line, hline, rfl⟩) g htail
          intro l hl
          rw [List.mem_singleton] at hl
          exact hl ▸ hline
    · have hcur' : ∀ l ∈ cur ++ [line], l ∈ L := by
        intro l hl
        rcases List.mem_append.1 hl with h | h
        · exact hcur l h
        · rw [List.mem_singleton] at h
          exact h ▸ hline
      have hsum : sumLen (cur ++ [line]) = sumLen cur + line.length := by
        simp [sumLen]
      have hinv' : sumLen (cur ++ [line]) ≤ cs ∨ ∃ l ∈ L, cur ++ [line] = [l] := by
        by_cases hc : cur = []
        · exact Or.inr ⟨line, hline, by simp [hc]⟩
        · left
          rw [hsum]
          have : ¬ sz + line.length > cs := fun hgt => h1 ⟨hgt, hc⟩
          omega
      rw [chunkGroups, if_neg h1] at hg
      by_cases h2 : isHeaderLine line = true ∧ 2 * (sz + line.length) > cs
      · rw [if_pos h2] at hg
        rcases List.mem_cons.1 hg with hgcur | hrec
        · exact hgcur ▸ ⟨hcur', hinv'⟩
        · exact ih [] 0 (by simp) hrest (by simp [sumLen]) (Or.inl (by simp [sumLen])) g hrec
      · rw [if_neg h2] at hg
        exact ih (cur ++ [line]) (sz + line.length) hcur' hrest (by omega) hinv' g hg

/-! Recovering the lines of an emitted chunk: the lines produced by
`splitLines` contain no newline, and `splitLines` inverts `joinLines` on
non-empty newline-free groups. -/

theorem splitLines_no_newline (s : List Char) : ∀ l ∈ splitLines s, '\n' ∉ l := by
  induction s with
  | nil =>
    intro l hl
    simp only [splitLines, List.mem_singleton] at hl
    simp [hl]
  | cons c cs ih =>
    intro l hl
    simp only [splitLines] at hl
    by_cases h : c = '\n'
    · rw [if_pos h] at hl
      rcases List.mem_cons.1 hl with h' | h'
      · simp [h']
      · exact ih l h'
    · rw [if_neg h] at hl
      cases hsc : splitLines cs with
      | nil => exact absurd hsc (splitLines_ne_nil cs)
      | cons x xs =>
        rw [hsc] at hl
        rcases List.mem_cons.1 hl with h' | h'
        · subst h'
          intro hmem
          rcases List.mem_cons.1 hmem with h'' | h''
          · exact h h''.symm
          · exact ih x (hsc ▸ List.mem_cons_self x xs) h''
        · exact ih l (hsc ▸ List.mem_cons_of_mem _ h')

theorem splitLines_single (l : List Char) (h : '\n' ∉ l) : splitLines l = [l] := by
  induction l with
  | nil => rfl
  | cons c cs ih =>
    have hc : ¬ c = '\n' := fun h' => h (h' ▸ List.mem_cons_self c cs)
    have hcs := ih (fun h' => h (List.mem_cons_of_mem _ h'))
    simp only [splitLines, if_neg hc, hcs]

theorem splitLines_append_newline (l t : List Char) (h : '\n' ∉ l) :
    splitLines (l ++ '\n' :: t) = l :: splitLines t := by
  induction l with
  | nil => simp [splitLines]
  | cons c cs ih =>
    have hc : ¬ c = '\n' := fun h' => h (h' ▸ List.mem_cons_self c cs)
    have hcs := ih (fun h' => h (List.mem_cons_of_mem _ h'))
    simp only [List.cons_append, splitLines, if_neg hc, List.append_eq, hcs]

theorem splitLines_joinLines (g : List (List Char)) (hne : g ≠ [])
    (h : ∀ l ∈ g, '\n' ∉ l) : splitLines (joinLines g) = g := by
  induction g with
  | nil => exact absurd rfl hne
  | cons l ls ih =>
    cases hls : ls with
    | nil =>
      simp only [joinLines]
      exact splitLines_single l (h l (by simp))
    | cons l' ls' =>
      subst hls
      rw [joinLines_cons _ _ (by simp),
        splitLines_append_newline l _ (h l (by simp)),
        ih (by simp) (fun x hx => h x (List.mem_cons_of_mem _ hx))]

theorem le_foldr_max (xs : List Nat) : ∀ x ∈ xs, x ≤ xs.foldr Nat.max 0 := by
  induction xs with
  | nil => intro x hx; simp at hx
  | cons a as ih =>
    intro x hx
    rcases List.mem_cons.1 hx with h | h
    · exact h ▸ Nat.le_max_left a (as.foldr Nat.max 0)
    · exact le_trans (ih x h) (Nat.le_max_right a _)

theorem le_maxLineLen {text l : List Char} (h : l ∈ splitLines text) :
    l.length ≤ maxLineLen text :=
  le_foldr_max _ _ (List.mem_map_of_mem List.length h)

/-- C5 amended: for every input text, every chunk returned by
`chunk_code_by_files`, *counting only the characters of its lines and not
the newline separators re-inserted by joining*, has total length at most
the configured chunk size limit plus the length of one (the longest) line
of the input. -/
theorem c5_amended (text : List Char) :
    ∀ c ∈ chunk_code_by_files chunk_size text,
      sumLen (splitLines c) ≤ chunk_size + maxLineLen text := by
  intro c hc
  rw [chunk_code_by_files, chunkLoop_eq_map] at hc
  obtain ⟨g, hg, rfl⟩ := List.mem_map.1 hc
  have hgne := chunkGroups_ne_nil chunk_size (splitLines text) [] 0 g hg
  have hbound := chunkGroups_bound chunk_size (splitLines text) (splitLines text) [] 0
    (by simp) (fun l hl => hl) (by simp [sumLen]) (Or.inl (by simp [sumLen])) g hg
  have hnn : ∀ l ∈ g, '\n' ∉ l := fun l hl => splitLines_no_newline text l (hbound.1 l hl)
  rw [splitLines_joinLines g hgne hnn]
  rcases hbound.2 with h | ⟨l, hlL, rfl⟩
  · exact le_trans h (Nat.le_add_right _ _)
  · have h1 : l.length ≤ maxLineLen text := le_maxLineLen hlL
    have h2 : sumLen [l] = l.length := by simp [sumLen]
    omega

/-- Witness for C5 amended at a concrete input. -/
theorem c5_witness :
    sumLen (splitLines ['a']) ≤ chunk_size + maxLineLen ['a'] :=
  c5_amended ['a'] ['a'] (by decide)

/-! ## JSON values and per-chunk classification responses

`json.loads` output is modelled by `JValue`.  A run's classification
responses are supplied by an oracle `Nat → List Char → Option JValue`
(chunk index and chunk text to parsed response); `none` models a response
that fails JSON parsing. -/

inductive JValue where
  | null
  | bool (b : Bool)
  | num (n : Int)
  | str (s : List Char)
  | arr (xs : List JValue)
  | obj (fields : List (List Char × JValue))

abbrev JObj := List (List Char × JValue)

/-- Lookup in a Python dict built from an association list: when the same
key occurs twice the later binding wins, as when a Python dict is built
from pairs. -/
def dictGet : JObj → List Char → Option JValue
  | [], _ => none
  | kv :: rest, k =>
    match dictGet rest k with
    | some v => some v
    | none => if kv.1 = k then some kv.2 else none

/-- Python truthiness of a JSON value, as tested by line 209
(`if chunk_analysis[feature]["present"]:`). -/
def truthy : JValue → Bool
  | .null => false
  | .bool b => b
  | .num n => decide (n ≠ 0)
  | .str s => !s.isEmpty
  | .arr xs => !xs.isEmpty
  | .obj fs => !fs.isEmpty

/-- The fixed 13-feature catalog: the keys of the `combined_analysis`
literal (lines 93-107), in insertion order. -/
def catalogKeys : List (List Char) :=
  ["authentication", "realtime_events", "storage", "caching", "ai_implementation",
   "database", "microservices", "monolith", "api_exposed", "message_queues",
   "background_jobs", "sensitive_data", "external_apis"].map String.toList

/-- `required_features` (line 190). -/
def required_features : List (List Char) :=
  ["authentication", "database", "caching", "storage", "microservices"].map String.toList

def presentKey : List Char := "present".toList

def detailsKey : List Char := "details".toList

/-- The literal sentinel `"Not found"` (line 237). -/
def notFoundStr : List Char := "Not found".toList

/-! ## The running total `combined_analysis` and the merge loop -/

/-- A running per-feature verdict: `{"present": ..., "details": [...]}`.
During the run `details` is the Python list the code appends to. -/
structure RVerdict where
  present : Bool
  details : List JValue

/-- A finalized per-feature verdict, after lines 231-237 replace the
details list by a single string. -/
structure FVerdict where
  present : Bool
  details : List Char
deriving DecidableEq

abbrev Combined := List (List Char × RVerdict)

abbrev Final := List (List Char × FVerdict)

/-- The `combined_analysis` literal (lines 93-107): every catalog feature
starts with `present=False` and an empty details list. -/
def initCombined : Combined := catalogKeys.map (fun k => (k, ⟨false, []⟩))

/-- Lookup in an association list with unique keys (first match). -/
def lookupV {α : Type} : List (List Char × α) → List Char → Option α
  | [], _ => none
  | kv :: rest, k => if kv.1 = k then some kv.2 else lookupV rest k

/-- Key normalisation, line 185: `{k.strip().lower(): v for k, v in ...}`. -/
def normalizeKeys (fields : JObj) : JObj :=
  fields.map (fun kv => (pyLower (pyStrip kv.1), kv.2))

/-- From `json.loads` outcome to the normalized response dict.  `none`
models both a `json.JSONDecodeError` (line 218) and a parsed value that is
not an object, on which `.items()` raises `AttributeError`, caught by the
generic handler (line 225); in both cases the chunk is skipped. -/
def respToNorm : Option JValue → Option JObj
  | some (JValue.obj fields) => some (normalizeKeys fields)
  | _ => none

/-- Validation, lines 189-205: every required feature must be a key of the
normalized response (line 191), and `chunk_analysis[f].get('present')`
must be a boolean (line 201).  The two stages are combined into one
predicate: each failure mode (missing key; value not a dict, so `.get`
raises `AttributeError`; `present` missing or non-boolean) makes the chunk
skip with no other observable effect. -/
def validObj (norm : JObj) : Bool :=
  required_features.all fun f =>
    match dictGet norm f with
    | some (JValue.obj fs) =>
      match dictGet fs presentKey with
      | some (JValue.bool _) => true
      | _ => false
    | _ => false

/-- Effect of the merge-loop body (lines 208-213) at one feature key.
`crash` models an exception before any mutation: `chunk_analysis[feature]`
raises `KeyError` (key absent), or the feature value is not a dict so
`value["present"]` raises `TypeError`, or `present` is absent
(`KeyError`).  `setCrash` models `value["details"]` raising `KeyError`
after `present` was already set to `True` on the running total.  `skip` is
a falsy `present`; `setApp v` sets the flag and appends `v`. -/
inductive StepRes where
  | crash
  | skip
  | setCrash
  | setApp (v : JValue)

def stepAt (norm : JObj) (k : List Char) : StepRes :=
  match dictGet norm k with
  | some (JValue.obj fs) =>
    match dictGet fs presentKey with
    | some p =>
      if truthy p then
        match dictGet fs detailsKey with
        | some v => .setApp v
        | none => .setCrash
      else .skip
    | none => .crash
  | some _ => .crash
  | none => .crash

/-- Line 210: `combined_analysis[feature]["present"] = True`. -/
def setPres (m : Combined) (k : List Char) : Combined :=
  m.map fun kv => if kv.1 = k then (kv.1, ⟨true, kv.2.details⟩) else kv

/-- Lines 211-213: `combined_analysis[feature]["details"].append(...)`. -/
def appendDet (m : Combined) (k : List Char) (v : JValue) : Combined :=
  m.map fun kv => if kv.1 = k then (kv.1, ⟨kv.2.present, kv.2.details ++ [v]⟩) else kv

/-- The merge loop (lines 207-213) over an explicit key list (the code
iterates `for feature in combined_analysis`, i.e. the keys of the running
dict, which are always the catalog).  Returns the updated running total
and whether the loop ran to completion (`false`: an exception was raised
mid-loop and caught by the handlers at lines 221-227, leaving the partial
merge in place). -/
def mergeOver (norm : JObj) : List (List Char) → Combined → Combined × Bool
  | [], m => (m, true)
  | k :: ks, m =>
    match stepAt norm k with
    | .crash => (m, false)
    | .skip => mergeOver norm ks m
    | .setCrash => (setPres m k, false)
    | .setApp v => mergeOver norm ks (appendDet (setPres m k) k v)

/-- Whether merging a response over the given keys completes without an
exception; this depends only on the response, not on the running total. -/
def fullMerges (norm : JObj) (ks : List (List Char)) : Bool :=
  ks.all fun k =>
    match stepAt norm k with
    | .skip => true
    | .setApp _ => true
    | _ => false

/-- Merging one validated response into the running total, iterating the
keys of the running dict, exactly as lines 207-213 do. -/
def mergeResp (m : Combined) (norm : JObj) : Combined × Bool :=
  mergeOver norm (m.map Prod.fst) m

/-- Net effect of the merge loop on one feature key: whether its `present`
flag is set, and which detail value is appended, taking the mid-loop crash
cut-off into account. -/
def effAt (norm : JObj) : List (List Char) → List Char → Bool × Option JValue
  | [], _ => (false, none)
  | k :: ks, f =>
    match stepAt norm k with
    | .crash => (false, none)
    | .skip => if k = f then (false, none) else effAt norm ks f
    | .setCrash => if k = f then (true, none) else (false, none)
    | .setApp v => if k = f then (true, some v) else effAt norm ks f

/-! ### Lemmas about the merge loop -/

theorem lookupV_setPres_self (m : Combined) (k : List Char) :
    lookupV (setPres m k) k = (lookupV m k).map fun rv => ⟨true, rv.details⟩ := by
  induction m with
  | nil => rfl
  | cons kv rest ih =>
    by_cases h : kv.1 = k
    · simp [setPres, lookupV, h]
    · simp only [setPres, List.map_cons, if_neg h]
      rw [lookupV, if_neg h, lookupV, if_neg h]
      exact ih

theorem lookupV_setPres_ne (m : Combined) {k f : List Char} (h : k ≠ f) :
    lookupV (setPres m k) f = lookupV m f := by
  induction m with
  | nil => rfl
  | cons kv rest ih =>
    by_cases hk : kv.1 = k
    · have hf : ¬ kv.1 = f := fun hf => h (hk ▸ hf ▸ rfl)
      simp only [setPres, List.map_cons, if_pos hk]
      rw [lookupV, lookupV, if_neg hf, if_neg hf]
      exact ih
    · simp only [setPres, List.map_cons, if_neg hk]
      rw [lookupV, lookupV]
      split
      · rfl
      · exact ih

theorem lookupV_appendDet_self (m : Combined) (k : List Char) (v : JValue) :
    lookupV (appendDet m k v) k =
      (lookupV m k).map fun rv => ⟨rv.present, rv.details ++ [v]⟩ := by
  induction m with
  | nil => rfl
  | cons kv rest ih =>
    by_cases h : kv.1 = k
    · simp [appendDet, lookupV, h]
    · simp only [appendDet, List.map_cons, if_neg h]
      rw [lookupV, if_neg h, lookupV, if_neg h]
      exact ih

theorem lookupV_appendDet_ne (m : Combined) (v : JValue) {k f : List Char} (h : k ≠ f) :
    lookupV (appendDet m k v) f = lookupV m f := by
  induction m with
  | nil => rfl
  | cons kv rest ih =>
    by_cases hk : kv.1 = k
    · have hf : ¬ kv.1 = f := fun hf => h (hk ▸ hf ▸ rfl)
      simp only [appendDet, List.map_cons, if_pos hk]
      rw [lookupV, lookupV, if_neg hf, if_neg hf]
      exact ih
    · simp only [appendDet, List.map_cons, if_neg hk]
      rw [lookupV, lookupV]
      split
      · rfl
      · exact ih

theorem setPres_keys (m : Combined) (k : List Char) :
    (setPres m k).map Prod.fst = m.map Prod.fst := by
  induction m with
  | nil => rfl
  | cons kv rest ih =>
    simp only [setPres, List.map_cons] at ih ⊢
    rw [ih]
    by_cases h : kv.1 = k
    · rw [if_pos h]
    · rw [if_neg h]

theorem appendDet_keys (m : Combined) (k : List Char) (v : JValue) :
    (appendDet m k v).map Prod.fst = m.map Prod.fst := by
  induction m with
  | nil => rfl
  | cons kv rest ih =>
    simp only [appendDet, List.map_cons] at ih ⊢
    rw [ih]
    by_cases h : kv.1 = k
    · rw [if_pos h]
    · rw [if_neg h]

theorem mergeOver_keys (norm : JObj) (ks : List (List Char)) :
    ∀ m : Combined, ((mergeOver norm ks m).1).map Prod.fst = m.map Prod.fst := by
  induction ks with
  | nil => intro m; rfl
  | cons k ks ih =>
    intro m
    cases hstep : stepAt norm k with
    | crash => simp only [mergeOver, hstep]
    | skip => simp only [mergeOver, hstep]; exact ih m
    | setCrash => simp only [mergeOver, hstep]; exact setPres_keys m k
    | setApp v =>
      simp only [mergeOver, hstep]
      rw [ih, appendDet_keys, setPres_keys]

theorem mergeOver_flag (norm : JObj) (ks : List (List Char)) :
    ∀ m : Combined, (mergeOver norm ks m).2 = fullMerges norm ks := by
  induction ks with
  | nil => intro m; rfl
  | cons k ks ih =>
    intro m
    cases hstep : stepAt norm k with
    | crash => simp [mergeOver, fullMerges, hstep]
    | skip => simp only [mergeOver, fullMerges, List.all_cons, hstep]
              simpa [fullMerges] using ih m
    | setCrash => simp [mergeOver, fullMerges, hstep]
    | setApp v => simp only [mergeOver, fullMerges, List.all_cons, hstep]
                  simpa [fullMerges] using ih (appendDet (setPres m k) k v)

theorem effAt_not_mem (norm : JObj) (ks : List (List Char)) (f : List Char)
    (h : f ∉ ks) : effAt norm ks f = (false, none) := by
  induction ks with
  | nil => rfl
  | cons k ks ih =>
    have hk : ¬ k = f := fun hk => h (hk ▸ List.mem_cons_self k ks)
    have hks : f ∉ ks := fun hm => h (List.mem_cons_of_mem _ hm)
    cases hstep : stepAt norm k with
    | crash => simp [effAt, hstep]
    | skip => simp only [effAt, hstep, if_neg hk]; exact ih hks
    | setCrash => simp [effAt, hstep, if_neg hk]
    | setApp v => simp only [effAt, hstep, if_neg hk]; exact ih hks

/-- Per-feature characterization of the merge loop: on a duplicate-free
key list, the running total's entry at `f` gets its `present` flag OR-ed
with the response's effect flag and its details extended with the
response's appended value, exactly once. -/
theorem mergeOver_lookup (norm : JObj) (ks : List (List Char)) (f : List Char) :
    ∀ m : Combined, ks.Nodup →
      lookupV (mergeOver norm ks m).1 f =
        (lookupV m f).map fun rv =>
          ⟨rv.present || (effAt norm ks f).1,
            rv.details ++ ((effAt norm ks f).2).toList⟩ := by
  induction ks with
  | nil =>
    intro m _
    cases h : lookupV m f <;> simp [mergeOver, effAt, h]
  | cons k ks ih =>
    intro m hnd
    have hnd' : ks.Nodup := hnd.of_cons
    cases hstep : stepAt norm k with
    | crash =>
      simp only [mergeOver, effAt, hstep]
      cases h : lookupV m f <;> simp [h]
    | skip =>
      simp only [mergeOver, effAt, hstep]
      rw [ih m hnd']
      by_cases hk : k = f
      · rw [if_pos hk]
        have hf : f ∉ ks := hk ▸ (List.nodup_cons.1 hnd).1
        rw [effAt_not_mem norm ks f hf]
      · rw [if_neg hk]
    | setCrash =>
      simp only [mergeOver, effAt, hstep]
      by_cases hk : k = f
      · subst hk
        rw [if_pos rfl, lookupV_setPres_self]
        cases h : lookupV m k <;> simp [h]
      · rw [if_neg hk, lookupV_setPres_ne m hk]
        cases h : lookupV m f <;> simp [h]
    | setApp v =>
      simp only [mergeOver, effAt, hstep]
      rw [ih _ hnd']
      by_cases hk : k = f
      · subst hk
        rw [if_pos rfl]
        have hnm : k ∉ ks := (List.nodup_cons.1 hnd).1
        rw [effAt_not_mem norm ks k hnm, lookupV_appendDet_self, lookupV_setPres_self]
        cases h : lookupV m k <;> simp [h]
      · rw [if_neg hk, lookupV_appendDet_ne _ _ hk, lookupV_setPres_ne _ hk]

/-- Monotonicity: once `present` is `true` in the running total it can
never be reset by merging further responses (any key list, any state). -/
theorem mergeOver_present_mono (norm : JObj) (ks : List (List Char)) :
    ∀ (m : Combined) (f : List Char),
      (lookupV m f).map RVerdict.present = some true →
      (lookupV (mergeOver norm ks m).1 f).map RVerdict.present = some true := by
  induction ks with
  | nil => intro m f h; exact h
  | cons k ks ih =>
    intro m f h
    cases hstep : stepAt norm k with
    | crash => simp only [mergeOver, hstep]; exact h
    | skip => simp only [mergeOver, hstep]; exact ih m f h
    | setCrash =>
      simp only [mergeOver, hstep]
      by_cases hk : k = f
      · subst hk
        rw [lookupV_setPres_self]
        cases hl : lookupV m k
        · rw [hl] at h; simp at h
        · simp
      · rw [lookupV_setPres_ne m hk]
        exact h
    | setApp v =>
      simp only [mergeOver, hstep]
      refine ih _ f ?_
      by_cases hk : k = f
      · subst hk
        rw [lookupV_appendDet_self, lookupV_setPres_self]
        cases hl : lookupV m k
        · rw [hl] at h; simp at h
        · simp
      · rw [lookupV_appendDet_ne _ _ hk, lookupV_setPres_ne _ hk]
        exact h

theorem initCombined_keys : initCombined.map Prod.fst = catalogKeys := by
  rw [initCombined, List.map_map]
  exact List.map_id catalogKeys

theorem catalogKeys_nodup : catalogKeys.Nodup := by decide

/-- `mergeMany` folds a list of validated responses into a running total in
order, the way the driver merges successive chunks. -/
def mergeMany (m : Combined) (rs : List JObj) : Combined :=
  rs.foldl (fun acc r => (mergeResp acc r).1) m

theorem mergeMany_keys (rs : List JObj) :
    ∀ m : Combined, (mergeMany m rs).map Prod.fst = m.map Prod.fst := by
  induction rs with
  | nil => intro m; rfl
  | cons r rs ih =>
    intro m
    show (mergeMany (mergeResp m r).1 rs).map Prod.fst = _
    rw [ih, mergeResp, mergeOver_keys]

/-- Per-feature characterization of a whole fold of merges. -/
theorem mergeMany_present (rs : List JObj) :
    ∀ m : Combined, m.map Prod.fst = catalogKeys → ∀ f : List Char,
      (lookupV (mergeMany m rs) f).map RVerdict.present =
        (lookupV m f).map fun rv =>
          rv.present || rs.any (fun r => (effAt r catalogKeys f).1) := by
  induction rs with
  | nil =>
    intro m _ f
    cases h : lookupV m f <;> simp [mergeMany, h]
  | cons r rs ih =>
    intro m hkeys f
    have hkeys' : ((mergeResp m r).1).map Prod.fst = catalogKeys := by
      rw [mergeResp, mergeOver_keys, hkeys]
    show (lookupV (mergeMany (mergeResp m r).1 rs) f).map RVerdict.present = _
    rw [ih _ hkeys' f, mergeResp, hkeys,
      mergeOver_lookup r catalogKeys f m catalogKeys_nodup]
    cases h : lookupV m f with
    | none => simp
    | some rv => simp [Bool.or_assoc]

/-- C7: merging any finite collection of validated per-chunk results into
the initial all-false running total yields, for every feature, the same
final `present` flag under every permutation of the merge order; and the
per-feature merge is a monotonic OR: once `present` is `true`, merging any
further response never resets it. -/
theorem c7_merge_order_independent (l₁ l₂ : List JObj) (hperm : l₁.Perm l₂)
    (_hval : ∀ r ∈ l₁, validObj r = true) (f : List Char) :
    (lookupV (mergeMany initCombined l₁) f).map RVerdict.present =
      (lookupV (mergeMany initCombined l₂) f).map RVerdict.present ∧
    ∀ (m : Combined) (norm : JObj),
      (lookupV m f).map RVerdict.present = some true →
      (lookupV (mergeResp m norm).1 f).map RVerdict.present = some true := by
  refine ⟨?_, fun m norm h => mergeOver_present_mono norm (m.map Prod.fst) m f h⟩
  rw [mergeMany_present l₁ initCombined initCombined_keys f,
    mergeMany_present l₂ initCombined initCombined_keys f]
  have hany : (l₁.any fun r => (effAt r catalogKeys f).1) =
      (l₂.any fun r => (effAt r catalogKeys f).1) := by
    cases h1 : l₁.any fun r => (effAt r catalogKeys f).1 with
    | true =>
      obtain ⟨r, hr, hrf⟩ := List.any_eq_true.1 h1
      exact (List.any_eq_true.2 ⟨r, hperm.mem_iff.1 hr, hrf⟩).symm
    | false =>
      cases h2 : l₂.any fun r => (effAt r catalogKeys f).1 with
      | false => rfl
      | true =>
        obtain ⟨r, hr, hrf⟩ := List.any_eq_true.1 h2
        have h3 : (l₁.any fun r => (effAt r catalogKeys f).1) = true :=
          List.any_eq_true.2 ⟨r, hperm.mem_iff.2 hr, hrf⟩
        rw [h1] at h3
        exact h3
  rw [hany]

/-- A minimal response carrying exactly the five required features, each an
object with a boolean `present` field (concrete test data). -/
def requiredOnlyResp (b : Bool) : JObj :=
  required_features.map fun f => (f, JValue.obj [(presentKey, JValue.bool b)])

/-- Witness for C7 at a concrete permutation of two validated responses. -/
theorem c7_witness :
    (lookupV (mergeMany initCombined [requiredOnlyResp true, requiredOnlyResp false])
        ("authentication".toList)).map RVerdict.present =
      (lookupV (mergeMany initCombined [requiredOnlyResp false, requiredOnlyResp true])
        ("authentication".toList)).map RVerdict.present :=
  (c7_merge_order_independent [requiredOnlyResp true, requiredOnlyResp false]
    [requiredOnlyResp false, requiredOnlyResp true]
    (List.Perm.swap (requiredOnlyResp false) (requiredOnlyResp true) [])
    (by decide) ("authentication".toList)).1

/-! ### C10: truthiness of non-required `present` fields -/

/-- Replace the value stored under `present` inside a feature object
(identity on non-objects); proof device for C10. -/
def setPresentVal : JValue → JValue → JValue
  | JValue.obj fs, v => JValue.obj (fs.map fun pv => (pv.1, if pv.1 = presentKey then v else pv.2))
  | w, _ => w

/-- Replace the `present` field of feature `f` in a normalized response;
proof device for C10. -/
def withPresent (norm : JObj) (f : List Char) (v : JValue) : JObj :=
  norm.map fun kv => (kv.1, if kv.1 = f then setPresentVal kv.2 v else kv.2)

theorem dictGet_replaceVal (fs : JObj) (k : List Char) (u : JValue) (g : List Char) :
    dictGet (fs.map fun pv => (pv.1, if pv.1 = k then u else pv.2)) g =
      (dictGet fs g).map fun w => if g = k then u else w := by
  induction fs with
  | nil => rfl
  | cons pv rest ih =>
    simp only [List.map_cons, dictGet]
    rw [ih]
    cases hrg : dictGet rest g with
    | some w => simp [hrg]
    | none =>
      simp only [hrg]
      by_cases hkg : pv.1 = g
      · simp [hkg]
      · simp [hkg]

theorem dictGet_withPresent (norm : JObj) (f : List Char) (v : JValue) (g : List Char) :
    dictGet (withPresent norm f v) g =
      (dictGet norm g).map fun w => if g = f then setPresentVal w v else w := by
  induction norm with
  | nil => rfl
  | cons kv rest ih =>
    simp only [withPresent, List.map_cons, dictGet] at ih ⊢
    rw [ih]
    cases hrg : dictGet rest g with
    | some w => simp [hrg]
    | none =>
      simp only [hrg]
      by_cases hkg : kv.1 = g
      · simp [hkg]
      · simp [hkg]

theorem option_map_id (o : Option JValue) : o.map (fun w => w) = o := by
  cases o <;> rfl

theorem stepAt_withPresent_ne (norm : JObj) (f : List Char) (v : JValue) {k : List Char}
    (h : ¬ k = f) : stepAt (withPresent norm f v) k = stepAt norm k := by
  simp only [stepAt, dictGet_withPresent, if_neg h, option_map_id]

theorem stepAt_withPresent_truthy (norm : JObj) (f : List Char) (v : JValue)
    (hv : truthy v = true) :
    stepAt (withPresent norm f v) f = stepAt (withPresent norm f (JValue.bool true)) f := by
  simp only [stepAt, dictGet_withPresent, if_pos rfl, if_true, eq_self_iff_true]
  cases hdg : dictGet norm f with
  | none => rfl
  | some w =>
    cases w with
    | obj fs =>
      simp only [Option.map_some', setPresentVal, dictGet_replaceVal, if_pos rfl,
        if_true, eq_self_iff_true,
        if_neg (show ¬ detailsKey = presentKey by decide), option_map_id]
      cases hp : dictGet fs presentKey with
      | none => rfl
      | some p =>
        simp only [hp, Option.map_some']
        have ht : truthy (JValue.bool true) = true := rfl
        rw [hv, ht]
    | null => rfl
    | bool b => rfl
    | num n => rfl
    | str s => rfl
    | arr xs => rfl

theorem mergeOver_congr (n₁ n₂ : JObj) (h : ∀ k, stepAt n₁ k = stepAt n₂ k) :
    ∀ (ks : List (List Char)) (m : Combined), mergeOver n₁ ks m = mergeOver n₂ ks m := by
  intro ks
  induction ks with
  | nil => intro m; rfl
  | cons k ks ih =>
    intro m
    cases hstep : stepAt n₂ k with
    | crash => simp only [mergeOver, h k, hstep]
    | skip => simp only [mergeOver, h k, hstep]; exact ih m
    | setCrash => simp only [mergeOver, h k, hstep]
    | setApp v => simp only [mergeOver, h k, hstep]; exact ih _

theorem list_all_congr {α : Type} (l : List α) (p q : α → Bool)
    (h : ∀ x ∈ l, p x = q x) : l.all p = l.all q := by
  induction l with
  | nil => rfl
  | cons a as ih =>
    simp only [List.all_cons, h a (List.mem_cons_self a as)]
    rw [ih (fun x hx => h x (List.mem_cons_of_mem _ hx))]

/-- Replacing the `present` value of a feature that is not in
`required_features` cannot change the validation outcome: validation reads
only the required features. -/
theorem validObj_withPresent (norm : JObj) (f : List Char) (v : JValue)
    (h : f ∉ required_features) :
    validObj (withPresent norm f v) = validObj norm := by
  simp only [validObj]
  refine list_all_congr _ _ _ (fun g hg => ?_)
  have hgf : ¬ g = f := fun hgf => h (hgf ▸ hg)
  simp only [dictGet_withPresent, if_neg hgf, option_map_id]

/-- C10: only the five required features have their `present` field
type-checked to be a boolean.  For any other catalog feature, a response
whose `present` field holds any truthy JSON value (for example a non-empty
string) passes validation and is merged exactly as if the chunk had
reported boolean `true`: validation outcome and the merged running total
are identical under replacing that `present` value by `true`. -/
theorem c10_truthy_non_required (m : Combined) (norm : JObj) (f : List Char)
    (v : JValue) (hcat : f ∈ catalogKeys) (hnr : f ∉ required_features)
    (hv : truthy v = true) :
    validObj (withPresent norm f v) = validObj (withPresent norm f (JValue.bool true)) ∧
      mergeResp m (withPresent norm f v) =
        mergeResp m (withPresent norm f (JValue.bool true)) := by
  have hstep : ∀ k, stepAt (withPresent norm f v) k =
      stepAt (withPresent norm f (JValue.bool true)) k := by
    intro k
    by_cases hk : k = f
    · subst hk
      exact stepAt_withPresent_truthy norm k v hv
    · rw [stepAt_withPresent_ne norm f v hk, stepAt_withPresent_ne norm f _ hk]
  refine ⟨?_, ?_⟩
  · rw [validObj_withPresent norm f v hnr, validObj_withPresent norm f _ hnr]
  · rw [mergeResp, mergeResp, mergeOver_congr _ _ hstep]

/-- A one-feature response reporting `monolith` with a truthy non-boolean
`present` (concrete test data for C10). -/
def monolithResp : JObj :=
  [("monolith".toList,
    JValue.obj [(presentKey, JValue.str "x".toList), (detailsKey, JValue.str "m".toList)])]

/-- Witness for C10 at a concrete non-required feature and truthy string. -/
theorem c10_witness :
    validObj (withPresent monolithResp "monolith".toList (JValue.str "x".toList)) =
        validObj (withPresent monolithResp "monolith".toList (JValue.bool true)) ∧
      mergeResp initCombined (withPresent monolithResp "monolith".toList (JValue.str "x".toList)) =
        mergeResp initCombined (withPresent monolithResp "monolith".toList (JValue.bool true)) :=
  c10_truthy_non_required initCombined monolithResp "monolith".toList
    (JValue.str "x".toList) (by decide) (by decide) (by decide)

/-! ## The pipeline driver: `FeatureAnalyzer.analyze_with_llm` (lines 87-239) -/

/-- Run state threaded through the per-chunk loop: the memoization dict
`self.analysis_cache` (line 24; keys are Python `hash(chunk)` values,
modelled through a hash function passed as a parameter), the running total
`combined_analysis`, and — as pure instrumentation — the number of
classification calls issued so far. -/
structure RunState where
  cache : List (Int × JObj)
  combined : Combined
  calls : Nat

def lookupCache : List (Int × JObj) → Int → Option JObj
  | [], _ => none
  | kv :: rest, k => if kv.1 = k then some kv.2 else lookupCache rest k

/-- One iteration of the chunk loop (lines 146-227) for chunk number `i`:
cache check (lines 148-152; a hit only sets the local `chunk_analysis` and
continues — the cached result is *not* merged); small-chunk skip
(line 159); the classification call (counted); JSON parsing and key
normalisation; validation; merge; and caching of the response only after a
*complete* merge (line 216 runs after the merge loop).  All per-chunk
exceptions are caught by the handlers at lines 218-227 and leave in place
whatever the merge loop had already mutated. -/
def processChunk (hashFn : List Char → Int) (oracle : Nat → List Char → Option JValue)
    (i : Nat) (st : RunState) (chunk : List Char) : RunState :=
  if (lookupCache st.cache (hashFn chunk)).isSome then st
  else if (pyStrip chunk).length < 100 then st
  else
    let st1 : RunState := ⟨st.cache, st.combined, st.calls + 1⟩
    match respToNorm (oracle i chunk) with
    | none => st1
    | some norm =>
      if validObj norm then
        match mergeResp st1.combined norm with
        | (m, true) => ⟨(hashFn chunk, norm) :: st1.cache, m, st1.calls⟩
        | (m, false) => ⟨st1.cache, m, st1.calls⟩
      else st1

def runChunks (hashFn : List Char → Int) (oracle : Nat → List Char → Option JValue) :
    Nat → RunState → List (List Char) → RunState
  | _, st, [] => st
  | i, st, c :: cs => runChunks hashFn oracle (i + 1) (processChunk hashFn oracle i st c) cs

/-- Extract the list of strings from a details list; `none` models the
`TypeError` raised by `set(...)`/`"\n".join(...)` at lines 233-235 when
some appended detail value is not a string — that exception is not caught
anywhere, so `analyze_with_llm` itself raises. -/
def allStringsOf : List JValue → Option (List (List Char))
  | [] => some []
  | JValue.str s :: rest => (allStringsOf rest).map (s :: ·)
  | _ => none

/-- Deduplication keeping the first occurrence.  Python line 234 converts
the details list to a `set`, whose iteration order is unspecified; the
embedding fixes first-occurrence order as the canonical enumeration of
that set. -/
def dedupAcc (seen : List (List Char)) : List (List Char) → List (List Char)
  | [] => []
  | x :: xs => if x ∈ seen then dedupAcc seen xs else x :: dedupAcc (x :: seen) xs

/-- Lines 231-237: replace a feature's details list by the newline-join of
its deduplicated evidence strings, or by the sentinel `"Not found"` when
the list is empty. -/
def finalizeDetails (d : List JValue) : Option (List Char) :=
  match d with
  | [] => some notFoundStr
  | _ => (allStringsOf d).map fun ss => joinLines (dedupAcc [] ss)

def finalizeAll : Combined → Option Final
  | [] => some []
  | (k, rv) :: rest =>
    match finalizeDetails rv.details, finalizeAll rest with
    | some ds, some fr => some ((k, ⟨rv.present, ds⟩) :: fr)
    | _, _ => none

/-- `FeatureAnalyzer.analyze_with_llm` (lines 87-239): chunk the text,
classify each chunk through the cache, merge, finalize.  The first
component is the returned map — `none` when the finalize step raises —
and the second the number of classification calls issued. -/
def analyze_with_llm (hashFn : List Char → Int) (oracle : Nat → List Char → Option JValue)
    (text : List Char) : Option Final × Nat :=
  let st := runChunks hashFn oracle 0 ⟨[], initCombined, 0⟩
    (chunk_code_by_files chunk_size text)
  (finalizeAll st.combined, st.calls)

/-- The all-default final map: every catalog feature `present=false` and
details `"Not found"`. -/
def initFinal : Final := catalogKeys.map fun k => (k, ⟨false, notFoundStr⟩)

/-! ### C2: error isolation -/

/-- Helper: a chunk failing before the merge loop leaves the running total
and the cache unchanged. -/
theorem processChunk_fail_eq (hashFn : List Char → Int)
    (oracle : Nat → List Char → Option JValue)
    (i : Nat) (st : RunState) (chunk : List Char)
    (h : (lookupCache st.cache (hashFn chunk)).isSome = true ∨
      (pyStrip chunk).length < 100 ∨
      respToNorm (oracle i chunk) = none ∨
      ∃ norm, respToNorm (oracle i chunk) = some norm ∧ validObj norm = false) :
    (processChunk hashFn oracle i st chunk).combined = st.combined ∧
      (processChunk hashFn oracle i st chunk).cache = st.cache := by
  by_cases hc : (lookupCache st.cache (hashFn chunk)).isSome = true
  · constructor <;> simp [processChunk, hc]
  · by_cases hs : (pyStrip chunk).length < 100
    · constructor <;> simp [processChunk, hc, hs]
    · rcases h with h | h | h | ⟨norm, h1, h2⟩
      · exact absurd h hc
      · exact absurd h hs
      · constructor <;> simp [processChunk, hc, hs, h]
      · constructor <;> simp [processChunk, hc, hs, h1, h2]

/-- C2 amended: a chunk whose classification fails *before the merge loop*
— cache hit, too-small chunk, unparsable or non-object JSON, or a response
failing the required-feature validation — leaves the running total and the
cache exactly unchanged, and the run continues with the next chunk.  (The
original claim is false for failures raised *inside* the merge loop, which
leave a partial merge: see the counterexample.) -/
theorem c2_amended (hashFn : List Char → Int) (oracle : Nat → List Char → Option JValue)
    (i : Nat) (st : RunState) (chunk : List Char)
    (h : (lookupCache st.cache (hashFn chunk)).isSome = true ∨
      (pyStrip chunk).length < 100 ∨
      respToNorm (oracle i chunk) = none ∨
      ∃ norm, respToNorm (oracle i chunk) = some norm ∧ validObj norm = false) :
    (processChunk hashFn oracle i st chunk).combined = st.combined ∧
      (processChunk hashFn oracle i st chunk).cache = st.cache :=
  processChunk_fail_eq hashFn oracle i st chunk h

/-- Witness for C2 amended at a concrete failing chunk (unparsable JSON). -/
theorem c2_witness :
    (processChunk (fun _ => 0) (fun _ _ => none) 0 ⟨[], initCombined, 0⟩ []).combined =
        initCombined ∧
      (processChunk (fun _ => 0) (fun _ _ => none) 0 ⟨[], initCombined, 0⟩ []).cache = [] :=
  c2_amended (fun _ => 0) (fun _ _ => none) 0 ⟨[], initCombined, 0⟩ []
    (Or.inr (Or.inr (Or.inl rfl)))

/-- A response that passes validation (all five required features have a
boolean `present`), reports `authentication` as present with details `"X"`,
but omits `realtime_events`: merging it raises `KeyError` at the second
catalog feature — after `authentication` has already been merged. -/
def partialResp : JObj :=
  ("authentication".toList,
      JValue.obj [(presentKey, JValue.bool true), (detailsKey, JValue.str "X".toList)]) ::
    (["database", "caching", "storage", "microservices"].map fun s =>
      (s.toList, JValue.obj [(presentKey, JValue.bool false)]))

/-- C2 counterexample: a chunk whose classification fails (with a
`KeyError` inside the merge loop — an "unexpected exception", so the chunk
is not cached) does NOT leave the running total unchanged: the response
validates, its merge crashes at `realtime_events`, yet `authentication`
has already been flipped to `present=true` — a partial merge. -/
theorem c2_counterexample :
    validObj partialResp = true ∧
      fullMerges partialResp catalogKeys = false ∧
      (let st' := processChunk (fun _ => 0) (fun _ _ => some (JValue.obj partialResp)) 0
          ⟨[], initCombined, 0⟩ (List.replicate 100 'a')
       st'.cache.length = 0 ∧
         (lookupV st'.combined "authentication".toList).map RVerdict.present = some true ∧
         (lookupV initCombined "authentication".toList).map RVerdict.present = some false) := by
  refine ⟨by decide, by decide, ?_, ?_, ?_⟩
  · decide
  · decide
  · decide

/-! ### C6: degradation to the complete default map -/

theorem finalizeAll_keys (m : Combined) :
    ∀ M : Final, finalizeAll m = some M → M.map Prod.fst = m.map Prod.fst := by
  induction m with
  | nil =>
    intro M h
    simp only [finalizeAll] at h
    cases h
    rfl
  | cons kv rest ih =>
    intro M h
    obtain ⟨k, rv⟩ := kv
    simp only [finalizeAll] at h
    cases hd : finalizeDetails rv.details with
    | none => rw [hd] at h; cases h
    | some ds =>
      rw [hd] at h
      cases hr : finalizeAll rest with
      | none => rw [hr] at h; cases h
      | some fr =>
        rw [hr] at h
        cases h
        simp only [List.map_cons]
        rw [ih fr hr]

theorem processChunk_keys (hashFn : List Char → Int)
    (oracle : Nat → List Char → Option JValue) (i : Nat) (st : RunState)
    (chunk : List Char) :
    ((processChunk hashFn oracle i st chunk).combined).map Prod.fst =
      (st.combined).map Prod.fst := by
  by_cases hc : (lookupCache st.cache (hashFn chunk)).isSome = true
  · simp [processChunk, hc]
  · by_cases hs : (pyStrip chunk).length < 100
    · simp [processChunk, hc, hs]
    · cases hr : respToNorm (oracle i chunk) with
      | none => simp [processChunk, hc, hs, hr]
      | some norm =>
        by_cases hv : validObj norm = true
        · have hkeys : ((mergeResp st.combined norm).1).map Prod.fst =
              (st.combined).map Prod.fst := by
            rw [mergeResp]
            exact mergeOver_keys norm _ st.combined
          cases hm : mergeResp st.combined norm with
          | mk m ok =>
            rw [hm] at hkeys
            cases ok <;> simp [processChunk, hc, hs, hr, hv, hm] <;> exact hkeys
        · simp [processChunk, hc, hs, hr, hv]

theorem runChunks_keys (hashFn : List Char → Int)
    (oracle : Nat → List Char → Option JValue) (cs : List (List Char)) :
    ∀ (i : Nat) (st : RunState),
      ((runChunks hashFn oracle i st cs).combined).map Prod.fst =
        (st.combined).map Prod.fst := by
  induction cs with
  | nil => intro i st; rfl
  | cons c cs ih =>
    intro i st
    show ((runChunks hashFn oracle (i + 1)
      (processChunk hashFn oracle i st c) cs).combined).map Prod.fst = _
    rw [ih, processChunk_keys]

theorem runChunks_all_fail (hashFn : List Char → Int)
    (oracle : Nat → List Char → Option JValue)
    (hfail : ∀ i c norm, respToNorm (oracle i c) = some norm → validObj norm = false)
    (cs : List (List Char)) :
    ∀ (i : Nat) (st : RunState), st.cache = [] → st.combined = initCombined →
      (runChunks hashFn oracle i st cs).combined = initCombined ∧
        (runChunks hashFn oracle i st cs).cache = [] := by
  induction cs with
  | nil => intro i st h1 h2; exact ⟨h2, h1⟩
  | cons c cs ih =>
    intro i st h1 h2
    have h : (processChunk hashFn oracle i st c).combined = st.combined ∧
        (processChunk hashFn oracle i st c).cache = st.cache := by
      apply processChunk_fail_eq
      by_cases hs : (pyStrip c).length < 100
      · exact Or.inr (Or.inl hs)
      · cases hr : respToNorm (oracle i c) with
        | none => exact Or.inr (Or.inr (Or.inl rfl))
        | some norm => exact Or.inr (Or.inr (Or.inr ⟨norm, rfl, hfail i c norm hr⟩))
    exact ih (i + 1) _ (h.2.trans h1) (h.1.trans h2)

/-- C6 amended: whenever `analyze_with_llm` returns a map — in particular
whenever no merged details value is a non-string, which is what the
finalize step would raise `TypeError` on — that map's key sequence is
exactly the fixed 13-feature catalog; and when every chunk's response
fails parsing or validation, it always returns the complete default map
(`present=false`, details `"Not found"`, for every catalog feature).
(The original "always returns" is false when a merged details value is not
a string: see the counterexample.) -/
theorem c6_amended (hashFn : List Char → Int)
    (oracle : Nat → List Char → Option JValue) (text : List Char) :
    (∀ M : Final, (analyze_with_llm hashFn oracle text).1 = some M →
        M.map Prod.fst = catalogKeys) ∧
    ((∀ i c norm, respToNorm (oracle i c) = some norm → validObj norm = false) →
      (analyze_with_llm hashFn oracle text).1 = some initFinal) := by
  constructor
  · intro M hM
    have h1 := finalizeAll_keys _ M hM
    rw [h1, runChunks_keys]
    exact initCombined_keys
  · intro hfail
    have h := runChunks_all_fail hashFn oracle hfail
      (chunk_code_by_files chunk_size text) 0 ⟨[], initCombined, 0⟩ rfl rfl
    show finalizeAll (runChunks hashFn oracle 0 ⟨[], initCombined, 0⟩
      (chunk_code_by_files chunk_size text)).combined = some initFinal
    rw [h.1]
    decide

/-- Witness for C6 amended on a run where every chunk fails. -/
theorem c6_witness :
    initFinal.map Prod.fst = catalogKeys ∧
      (analyze_with_llm (fun _ => 0) (fun _ _ => none) []).1 = some initFinal := by
  have h := c6_amended (fun _ => 0) (fun _ _ => none) []
  have h2 := h.2 (fun _ _ _ hn => nomatch hn)
  exact ⟨h.1 initFinal h2, h2⟩

/-- A response covering all 13 catalog features, each `present=true` with a
non-string details value: it validates and merges fully, and the finalize
step then raises `TypeError`. -/
def numDetailsResp : JObj :=
  catalogKeys.map fun k =>
    (k, JValue.obj [(presentKey, JValue.bool true), (detailsKey, JValue.num 5)])

/-- C6 counterexample: with a chunk whose validated response reports a
non-string details value, `analyze_with_llm` does not return a map at all —
the uncaught `TypeError` at the finalize step aborts it (`none`). -/
theorem c6_counterexample :
    (analyze_with_llm (fun _ => 0) (fun _ _ => some (JValue.obj numDetailsResp))
      (List.replicate 100 'a')).1 = none := by
  decide

/-! ### C1: the repository-level invariant

The spec-side notions follow claim C1's words: a chunk "successfully
contributes" when it is not resolved from the cache, not skipped as too
small, parses, validates, and merges without a mid-loop exception; it
"reports" a feature when the feature maps to an object whose `present`
value is truthy. -/

/-- Whether a normalized response reports feature `f` with a truthy
`present` value. -/
def reportsTruthy (norm : JObj) (f : List Char) : Bool :=
  match dictGet norm f with
  | some (JValue.obj fs) =>
    match dictGet fs presentKey with
    | some p => truthy p
    | none => false
  | _ => false

/-- The details value a response contributes for feature `f` (only when
the feature is reported truthy). -/
def reportedDetail (norm : JObj) (f : List Char) : Option JValue :=
  match dictGet norm f with
  | some (JValue.obj fs) =>
    match dictGet fs presentKey with
    | some p => if truthy p then dictGet fs detailsKey else none
    | none => none
  | _ => none

/-- The normalized responses of the successfully contributing chunks of a
run, in chunk order.  `seen` carries the hashes already cached (the
driver's cache keys at that point). -/
def specSuccessList (hashFn : List Char → Int)
    (oracle : Nat → List Char → Option JValue) :
    Nat → List Int → List (List Char) → List JObj
  | _, _, [] => []
  | i, seen, c :: cs =>
    if hashFn c ∈ seen then specSuccessList hashFn oracle (i + 1) seen cs
    else if (pyStrip c).length < 100 then specSuccessList hashFn oracle (i + 1) seen cs
    else
      match respToNorm (oracle i c) with
      | none => specSuccessList hashFn oracle (i + 1) seen cs
      | some norm =>
        if validObj norm = true ∧ fullMerges norm catalogKeys = true then
          norm :: specSuccessList hashFn oracle (i + 1) (hashFn c :: seen) cs
        else specSuccessList hashFn oracle (i + 1) seen cs

theorem lookupCache_isSome (cache : List (Int × JObj)) (k : Int) :
    (lookupCache cache k).isSome = true ↔ k ∈ cache.map Prod.fst := by
  induction cache with
  | nil => simp [lookupCache]
  | cons kv rest ih =>
    by_cases h : kv.1 = k
    · simp only [lookupCache, if_pos h, Option.isSome_some, List.map_cons, List.mem_cons]
      exact iff_of_true trivial (Or.inl h.symm)
    · simp only [lookupCache, if_neg h, List.map_cons, List.mem_cons]
      rw [ih]
      constructor
      · exact Or.inr
      · intro hm
        rcases hm with hm | hm
        · exact absurd hm.symm h
        · exact hm

theorem stepAt_skip_reports (norm : JObj) (f : List Char)
    (h : stepAt norm f = StepRes.skip) :
    reportsTruthy norm f = false ∧ reportedDetail norm f = none := by
  cases hdg : dictGet norm f with
  | none => simp only [stepAt, hdg] at h; exact nomatch h
  | some w =>
    cases w with
    | obj fs =>
      simp only [stepAt, hdg] at h
      simp only [reportsTruthy, reportedDetail, hdg]
      cases hp : dictGet fs presentKey with
      | none => simp only [hp] at h; exact nomatch h
      | some p =>
        simp only [hp] at h ⊢
        by_cases ht : truthy p = true
        · rw [if_pos ht] at h
          cases hd : dictGet fs detailsKey with
          | some v => simp only [hd] at h; exact nomatch h
          | none => simp only [hd] at h; exact nomatch h
        · refine ⟨by simpa using ht, by rw [if_neg ht]⟩
    | null => simp only [stepAt, hdg] at h; exact nomatch h
    | bool b => simp only [stepAt, hdg] at h; exact nomatch h
    | num n => simp only [stepAt, hdg] at h; exact nomatch h
    | str s => simp only [stepAt, hdg] at h; exact nomatch h
    | arr xs => simp only [stepAt, hdg] at h; exact nomatch h

theorem stepAt_setApp_reports (norm : JObj) (f : List Char) (v : JValue)
    (h : stepAt norm f = StepRes.setApp v) :
    reportsTruthy norm f = true ∧ reportedDetail norm f = some v := by
  cases hdg : dictGet norm f with
  | none => simp only [stepAt, hdg] at h; exact nomatch h
  | some w =>
    cases w with
    | obj fs =>
      simp only [stepAt, hdg] at h
      simp only [reportsTruthy, reportedDetail, hdg]
      cases hp : dictGet fs presentKey with
      | none => simp only [hp] at h; exact nomatch h
      | some p =>
        simp only [hp] at h ⊢
        by_cases ht : truthy p = true
        · rw [if_pos ht] at h
          cases hd : dictGet fs detailsKey with
          | some u =>
            simp only [hd] at h
            cases h
            exact ⟨ht, by rw [if_pos ht]⟩
          | none => simp only [hd] at h; exact nomatch h
        · rw [if_neg ht] at h
          exact nomatch h
    | null => simp only [stepAt, hdg] at h; exact nomatch h
    | bool b => simp only [stepAt, hdg] at h; exact nomatch h
    | num n => simp only [stepAt, hdg] at h; exact nomatch h
    | str s => simp only [stepAt, hdg] at h; exact nomatch h
    | arr xs => simp only [stepAt, hdg] at h; exact nomatch h

/-- Under a full merge, the merge loop's per-feature effect is exactly
what the response reports for that feature. -/
theorem effAt_fullMerges (norm : JObj) (ks : List (List Char))
    (hfm : fullMerges norm ks = true) (f : List Char) (hf : f ∈ ks) :
    effAt norm ks f = (reportsTruthy norm f, reportedDetail norm f) := by
  induction ks with
  | nil => exact absurd hf (by simp)
  | cons k ks ih =>
    rw [fullMerges, List.all_cons, Bool.and_eq_true] at hfm
    have hfm' : fullMerges norm ks = true := hfm.2
    cases hstep : stepAt norm k with
    | crash => rw [hstep] at hfm; exact nomatch hfm.1
    | setCrash => rw [hstep] at hfm; exact nomatch hfm.1
    | skip =>
      simp only [effAt, hstep]
      by_cases hk : k = f
      · rw [if_pos hk]
        obtain ⟨h1, h2⟩ := stepAt_skip_reports norm f (hk ▸ hstep)
        rw [h1, h2]
      · rw [if_neg hk]
        refine ih hfm' ?_
        rcases List.mem_cons.1 hf with h | h
        · exact absurd h.symm hk
        · exact h
    | setApp v =>
      simp only [effAt, hstep]
      by_cases hk : k = f
      · rw [if_pos hk]
        obtain ⟨h1, h2⟩ := stepAt_setApp_reports norm f v (hk ▸ hstep)
        rw [h1, h2]
      · rw [if_neg hk]
        refine ih hfm' ?_
        rcases List.mem_cons.1 hf with h | h
        · exact absurd h.symm hk
        · exact h

/-- The run-level contribution invariant: under the no-partial-merge
hypothesis, each feature's running verdict after processing all chunks is
the starting verdict OR-ed and extended with exactly the contributions of
the successfully contributing chunks. -/
theorem runChunks_contrib (hashFn : List Char → Int)
    (oracle : Nat → List Char → Option JValue)
    (hfull : ∀ i c norm, respToNorm (oracle i c) = some norm → validObj norm = true →
      fullMerges norm catalogKeys = true)
    (cs : List (List Char)) :
    ∀ (i : Nat) (st : RunState), (st.combined).map Prod.fst = catalogKeys →
      ∀ f, f ∈ catalogKeys →
        lookupV (runChunks hashFn oracle i st cs).combined f =
          (lookupV st.combined f).map fun rv =>
            ⟨rv.present ||
                (specSuccessList hashFn oracle i (st.cache.map Prod.fst) cs).any
                  (fun r => reportsTruthy r f),
              rv.details ++
                (specSuccessList hashFn oracle i (st.cache.map Prod.fst) cs).filterMap
                  (fun r => reportedDetail r f)⟩ := by
  induction cs with
  | nil =>
    intro i st _ f _
    cases h : lookupV st.combined f <;> simp [runChunks, specSuccessList, h]
  | cons c cs ih =>
    intro i st hkeys f hf
    show lookupV (runChunks hashFn oracle (i + 1)
        (processChunk hashFn oracle i st c) cs).combined f = _
    by_cases hc : (lookupCache st.cache (hashFn c)).isSome = true
    · have hmem : hashFn c ∈ st.cache.map Prod.fst := (lookupCache_isSome _ _).1 hc
      have hcomb : (processChunk hashFn oracle i st c).combined = st.combined := by
        simp [processChunk, hc]
      have hcache : (processChunk hashFn oracle i st c).cache = st.cache := by
        simp [processChunk, hc]
      have hkeys' : ((processChunk hashFn oracle i st c).combined).map Prod.fst =
          catalogKeys := by rw [hcomb]; exact hkeys
      have hsp : specSuccessList hashFn oracle i (st.cache.map Prod.fst) (c :: cs) =
          specSuccessList hashFn oracle (i + 1) (st.cache.map Prod.fst) cs := by
        simp [specSuccessList, hmem]
      rw [ih (i + 1) _ hkeys' f hf, hcomb, hcache, hsp]
    · have hmem : hashFn c ∉ st.cache.map Prod.fst :=
        fun hm => hc ((lookupCache_isSome _ _).2 hm)
      by_cases hs : (pyStrip c).length < 100
      · have hcomb : (processChunk hashFn oracle i st c).combined = st.combined := by
          simp [processChunk, hc, hs]
        have hcache : (processChunk hashFn oracle i st c).cache = st.cache := by
          simp [processChunk, hc, hs]
        have hkeys' : ((processChunk hashFn oracle i st c).combined).map Prod.fst =
            catalogKeys := by rw [hcomb]; exact hkeys
        have hsp : specSuccessList hashFn oracle i (st.cache.map Prod.fst) (c :: cs) =
            specSuccessList hashFn oracle (i + 1) (st.cache.map Prod.fst) cs := by
          simp [specSuccessList, hmem, hs]
        rw [ih (i + 1) _ hkeys' f hf, hcomb, hcache, hsp]
      · cases hr : respToNorm (oracle i c) with
        | none =>
          have hcomb : (processChunk hashFn oracle i st c).combined = st.combined := by
            simp [processChunk, hc, hs, hr]
          have hcache : (processChunk hashFn oracle i st c).cache = st.cache := by
            simp [processChunk, hc, hs, hr]
          have hkeys' : ((processChunk hashFn oracle i st c).combined).map Prod.fst =
              catalogKeys := by rw [hcomb]; exact hkeys
          have hsp : specSuccessList hashFn oracle i (st.cache.map Prod.fst) (c :: cs) =
              specSuccessList hashFn oracle (i + 1) (st.cache.map Prod.fst) cs := by
            simp [specSuccessList, hmem, hs, hr]
          rw [ih (i + 1) _ hkeys' f hf, hcomb, hcache, hsp]
        | some norm =>
          by_cases hv : validObj norm = true
          · have hfm := hfull i c norm hr hv
            have hflag : (mergeResp st.combined norm).2 = true := by
              rw [mergeResp, hkeys, mergeOver_flag]
              exact hfm
            cases hmr : mergeResp st.combined norm with
            | mk m ok =>
              rw [hmr] at hflag
              have hok : ok = true := hflag
              subst hok
              have hcomb : (processChunk hashFn oracle i st c).combined = m := by
                simp [processChunk, hc, hs, hr, hv, hmr]
              have hcache : (processChunk hashFn oracle i st c).cache =
                  (hashFn c, norm) :: st.cache := by
                simp [processChunk, hc, hs, hr, hv, hmr]
              have hm0 : m = (mergeOver norm catalogKeys st.combined).1 := by
                have h1 : m = (mergeResp st.combined norm).1 := by rw [hmr]
                rw [h1, mergeResp, hkeys]
              have hkeys' : ((processChunk hashFn oracle i st c).combined).map Prod.fst =
                  catalogKeys := by
                rw [hcomb, hm0, mergeOver_keys]
                exact hkeys
              have hm1 : lookupV m f =
                  (lookupV st.combined f).map fun rv =>
                    ⟨rv.present || reportsTruthy norm f,
                      rv.details ++ (reportedDetail norm f).toList⟩ := by
                rw [hm0, mergeOver_lookup norm catalogKeys f st.combined catalogKeys_nodup,
                  effAt_fullMerges norm catalogKeys hfm f hf]
              have hsp : specSuccessList hashFn oracle i (st.cache.map Prod.fst) (c :: cs) =
                  norm :: specSuccessList hashFn oracle (i + 1)
                    (hashFn c :: st.cache.map Prod.fst) cs := by
                simp [specSuccessList, hmem, hs, hr, hv, hfm]
              rw [ih (i + 1) _ hkeys' f hf, hcomb, hcache, List.map_cons, hm1, hsp]
              cases hlv : lookupV st.combined f with
              | none => simp
              | some rv =>
                cases hrd : reportedDetail norm f with
                | none =>
                  simp [hrd, List.filterMap_cons, List.any_cons, Bool.or_assoc,
                    List.append_assoc]
                | some u =>
                  simp [hrd, List.filterMap_cons, List.any_cons, Bool.or_assoc,
                    List.append_assoc]
          · have hcomb : (processChunk hashFn oracle i st c).combined = st.combined := by
              simp [processChunk, hc, hs, hr, hv]
            have hcache : (processChunk hashFn oracle i st c).cache = st.cache := by
              simp [processChunk, hc, hs, hr, hv]
            have hkeys' : ((processChunk hashFn oracle i st c).combined).map Prod.fst =
                catalogKeys := by rw [hcomb]; exact hkeys
            have hsp : specSuccessList hashFn oracle i (st.cache.map Prod.fst) (c :: cs) =
                specSuccessList hashFn oracle (i + 1) (st.cache.map Prod.fst) cs := by
              simp [specSuccessList, hmem, hs, hr, hv]
            rw [ih (i + 1) _ hkeys' f hf, hcomb, hcache, hsp]

theorem lookupV_map_const {α : Type} (ks : List (List Char)) (g : List Char → α)
    (f : List Char) (hf : f ∈ ks) :
    lookupV (ks.map fun k => (k, g k)) f = some (g f) := by
  induction ks with
  | nil => exact absurd hf (by simp)
  | cons k ks ih =>
    by_cases h : k = f
    · subst h
      simp [lookupV]
    · simp only [List.map_cons, lookupV, if_neg h]
      refine ih ?_
      rcases List.mem_cons.1 hf with h' | h'
      · exact absurd h'.symm h
      · exact h'

theorem finalizeAll_lookup (m : Combined) :
    ∀ (M : Final), finalizeAll m = some M →
      ∀ (f : List Char) (p : Bool) (d : List JValue),
        lookupV m f = some ⟨p, d⟩ →
        ∃ ds, finalizeDetails d = some ds ∧ lookupV M f = some ⟨p, ds⟩ := by
  induction m with
  | nil =>
    intro M _ f p d hl
    exact nomatch hl
  | cons kv rest ih =>
    intro M hM f p d hl
    obtain ⟨k, rv⟩ := kv
    simp only [finalizeAll] at hM
    cases hd : finalizeDetails rv.details with
    | none => rw [hd] at hM; exact nomatch hM
    | some ds0 =>
      rw [hd] at hM
      cases hr : finalizeAll rest with
      | none => rw [hr] at hM; exact nomatch hM
      | some fr =>
        rw [hr] at hM
        cases hM
        by_cases hk : k = f
        · simp only [lookupV, if_pos hk] at hl
          cases hl
          exact ⟨ds0, hd, by simp only [lookupV, if_pos hk]⟩
        · simp only [lookupV, if_neg hk] at hl
          obtain ⟨ds, h1, h2⟩ := ih fr hr f p d hl
          refine ⟨ds, h1, ?_⟩
          simp only [lookupV, if_neg hk]
          exact h2

theorem allStringsOf_eq : ∀ (d : List JValue) (ss : List (List Char)),
    allStringsOf d = some ss → d = ss.map JValue.str := by
  intro d
  induction d with
  | nil =>
    intro ss h
    simp only [allStringsOf] at h
    cases h
    rfl
  | cons v rest ih =>
    intro ss h
    cases v with
    | str s =>
      simp only [allStringsOf] at h
      cases har : allStringsOf rest with
      | none => rw [har] at h; exact nomatch h
      | some ss' =>
        simp only [har, Option.map_some'] at h
        cases h
        rw [List.map_cons, ih ss' har]
    | null => simp only [allStringsOf] at h; exact nomatch h
    | bool b => simp only [allStringsOf] at h; exact nomatch h
    | num n => simp only [allStringsOf] at h; exact nomatch h
    | arr xs => simp only [allStringsOf] at h; exact nomatch h
    | obj fs => simp only [allStringsOf] at h; exact nomatch h

/-- C1 amended: restricted to runs in which every validated chunk response
also merges without a mid-loop exception (so there are no partial merges),
every feature of the returned map has `present=true` iff at least one
successfully contributing chunk reported a truthy `present` for it, and
its details field is the newline-joined deduplicated (first occurrence
kept) union of exactly those contributing chunks' details strings, or the
literal `"Not found"` when that union is empty. -/
theorem c1_amended (hashFn : List Char → Int)
    (oracle : Nat → List Char → Option JValue) (text : List Char) (M : Final)
    (hfull : ∀ i c norm, respToNorm (oracle i c) = some norm → validObj norm = true →
      fullMerges norm catalogKeys = true)
    (hres : (analyze_with_llm hashFn oracle text).1 = some M)
    (f : List Char) (hf : f ∈ catalogKeys) :
    ∃ fv : FVerdict, lookupV M f = some fv ∧
      (fv.present = true ↔ ∃ r ∈ specSuccessList hashFn oracle 0 []
          (chunk_code_by_files chunk_size text), reportsTruthy r f = true) ∧
      ∃ ss : List (List Char),
        (specSuccessList hashFn oracle 0 []
            (chunk_code_by_files chunk_size text)).filterMap
            (fun r => reportedDetail r f) = ss.map JValue.str ∧
        fv.details = if ss = [] then notFoundStr else joinLines (dedupAcc [] ss) := by
  have hinit : lookupV initCombined f = some ⟨false, []⟩ := by
    rw [initCombined]
    exact lookupV_map_const catalogKeys (fun _ => (⟨false, []⟩ : RVerdict)) f hf
  have hrun := runChunks_contrib hashFn oracle hfull (chunk_code_by_files chunk_size text)
    0 ⟨[], initCombined, 0⟩ initCombined_keys f hf
  simp only [List.map_nil] at hrun
  rw [hinit] at hrun
  simp only [Option.map_some', Bool.false_or, List.nil_append] at hrun
  have hres' : finalizeAll (runChunks hashFn oracle 0 ⟨[], initCombined, 0⟩
      (chunk_code_by_files chunk_size text)).combined = some M := hres
  obtain ⟨ds, hfd, hMl⟩ := finalizeAll_lookup _ M hres' f _ _ hrun
  refine ⟨_, hMl, List.any_eq_true, ?_⟩
  cases hdl : (specSuccessList hashFn oracle 0 []
      (chunk_code_by_files chunk_size text)).filterMap (fun r => reportedDetail r f) with
  | nil =>
    rw [hdl] at hfd
    simp only [finalizeDetails] at hfd
    cases hfd
    exact ⟨[], by simp, by rw [if_pos rfl]⟩
  | cons v rest =>
    rw [hdl] at hfd
    simp only [finalizeDetails] at hfd
    cases has : allStringsOf (v :: rest) with
    | none => rw [has] at hfd; exact nomatch hfd
    | some ss =>
      rw [has, Option.map_some'] at hfd
      cases hfd
      have heq : v :: rest = ss.map JValue.str := allStringsOf_eq _ ss has
      have hss : ss ≠ [] := by
        intro h0
        rw [h0] at heq
        exact nomatch heq
      exact ⟨ss, hdl ▸ heq, by rw [if_neg hss]⟩

/-- Witness for C1 amended on a concrete run with no contributing chunks. -/
theorem c1_witness :
    ∃ fv : FVerdict, lookupV initFinal "authentication".toList = some fv ∧
      (fv.present = true ↔ ∃ r ∈ specSuccessList (fun _ => 0) (fun _ _ => none) 0 []
          (chunk_code_by_files chunk_size []),
          reportsTruthy r "authentication".toList = true) ∧
      ∃ ss : List (List Char),
        (specSuccessList (fun _ => 0) (fun _ _ => none) 0 []
            (chunk_code_by_files chunk_size [])).filterMap
            (fun r => reportedDetail r "authentication".toList) = ss.map JValue.str ∧
        fv.details = if ss = [] then notFoundStr else joinLines (dedupAcc [] ss) :=
  c1_amended (fun _ => 0) (fun _ _ => none) [] initFinal
    (fun _ _ _ hn => nomatch hn) (by decide) "authentication".toList (by decide)

/-- C1 counterexample: on a run whose only chunk passes validation but
crashes mid-merge (so that NO chunk successfully contributes), the final
map still has `authentication` with `present=true` and details `"X"` —
not `"Not found"` — so neither the `present` iff nor the details clause of
the claim holds as stated. -/
theorem c1_counterexample :
    (specSuccessList (fun _ => 0) (fun _ _ => some (JValue.obj partialResp)) 0 []
        (chunk_code_by_files chunk_size (List.replicate 100 'a'))).length = 0 ∧
      (analyze_with_llm (fun _ => 0) (fun _ _ => some (JValue.obj partialResp))
          (List.replicate 100 'a')).1 =
        some (catalogKeys.map fun k =>
          (k, if k = "authentication".toList then ⟨true, "X".toList⟩
            else ⟨false, notFoundStr⟩)) ∧
      ("X".toList : List Char) ≠ notFoundStr := by
  refine ⟨by decide, by decide, by decide⟩

/-! ### C3: the result cache is a pure optimization

`analyze_with_llm_nocache` is the spec's "same pipeline with the cache
removed": identical per-chunk processing with the cache lookup and the
cache insertion deleted. -/

/-- One per-chunk step with the result cache removed. -/
def processChunkNC (f : List Char → Option JValue) (m : Combined) (c : List Char) :
    Combined :=
  if (pyStrip c).length < 100 then m
  else
    match respToNorm (f c) with
    | none => m
    | some norm => if validObj norm = true then (mergeResp m norm).1 else m

/-- `analyze_with_llm` with the memoization cache removed (the oracle is a
fixed deterministic function of the chunk content). -/
def analyze_with_llm_nocache (f : List Char → Option JValue) (text : List Char) :
    Option Final :=
  finalizeAll
    ((chunk_code_by_files chunk_size text).foldl (processChunkNC f) initCombined)

theorem lookupCache_mem (cache : List (Int × JObj)) (k : Int) (v : JObj)
    (h : lookupCache cache k = some v) : (k, v) ∈ cache := by
  induction cache with
  | nil => exact nomatch h
  | cons kv rest ih =>
    by_cases hk : kv.1 = k
    · simp only [lookupCache, if_pos hk] at h
      cases h
      have he : (k, kv.2) = kv := by
        rw [← hk]
      rw [he]
      exact List.mem_cons_self kv rest
    · simp only [lookupCache, if_neg hk] at h
      exact List.mem_cons_of_mem _ (ih h)

theorem allStringsOf_snoc (d : List JValue) (s : List Char) :
    allStringsOf (d ++ [JValue.str s]) = (allStringsOf d).map (· ++ [s]) := by
  induction d with
  | nil => rfl
  | cons v rest ih =>
    cases v with
    | str t =>
      simp only [List.cons_append, allStringsOf, List.append_eq, ih]
      cases allStringsOf rest <;> rfl
    | null => rfl
    | bool b => rfl
    | num n => rfl
    | arr xs => rfl
    | obj fs => rfl

theorem allStringsOf_snoc_nonstr (d : List JValue) (v : JValue)
    (hv : ∀ s, v ≠ JValue.str s) : allStringsOf (d ++ [v]) = none := by
  induction d with
  | nil =>
    cases v with
    | str s => exact absurd rfl (hv s)
    | null => rfl
    | bool b => rfl
    | num n => rfl
    | arr xs => rfl
    | obj fs => rfl
  | cons w rest ih =>
    cases w with
    | str t =>
      simp only [List.cons_append, allStringsOf, List.append_eq, ih]
      rfl
    | null => rfl
    | bool b => rfl
    | num n => rfl
    | arr xs => rfl
    | obj fs => rfl

theorem mem_of_allStrings (d : List JValue) (ss : List (List Char))
    (h : allStringsOf d = some ss) (v : JValue) (hv : v ∈ d) :
    ∃ s, v = JValue.str s ∧ s ∈ ss := by
  have hd := allStringsOf_eq d ss h
  rw [hd] at hv
  obtain ⟨s, hs, rfl⟩ := List.mem_map.1 hv
  exact ⟨s, rfl, hs⟩

theorem dedupAcc_append_single (s : List Char) :
    ∀ (ss seen : List (List Char)),
      dedupAcc seen (ss ++ [s]) =
        dedupAcc seen ss ++ (if s ∈ ss ∨ s ∈ seen then [] else [s]) := by
  intro ss
  induction ss with
  | nil =>
    intro seen
    by_cases h : s ∈ seen
    · simp [dedupAcc, h]
    · simp [dedupAcc, h]
  | cons x xs ih =>
    intro seen
    by_cases hx : x ∈ seen
    · simp only [List.cons_append, dedupAcc, List.append_eq, if_pos hx]
      rw [ih seen]
      by_cases hs : s ∈ x :: xs ∨ s ∈ seen
      · rcases hs with hs | hs
        · rcases List.mem_cons.1 hs with hs | hs
          · rw [if_pos (Or.inr (hs ▸ hx)), if_pos (Or.inl (List.mem_cons.2 (Or.inl hs)))]
          · rw [if_pos (Or.inl hs), if_pos (Or.inl (List.mem_cons.2 (Or.inr hs)))]
        · rw [if_pos (Or.inr hs), if_pos (Or.inr hs)]
      · push_neg at hs
        have h1 : ¬ (s ∈ xs ∨ s ∈ seen) := by
          intro h
          rcases h with h | h
          · exact hs.1 (List.mem_cons.2 (Or.inr h))
          · exact hs.2 h
        rw [if_neg h1, if_neg (by push_neg; exact hs)]
    · simp only [List.cons_append, dedupAcc, List.append_eq, if_neg hx]
      rw [ih (x :: seen)]
      by_cases hs : s ∈ x :: xs ∨ s ∈ seen
      · have h1 : s ∈ xs ∨ s ∈ x :: seen := by
          rcases hs with hs | hs
          · rcases List.mem_cons.1 hs with hs | hs
            · exact Or.inr (List.mem_cons.2 (Or.inl hs))
            · exact Or.inl hs
          · exact Or.inr (List.mem_cons.2 (Or.inr hs))
        rw [if_pos h1, if_pos hs]
      · push_neg at hs
        have h1 : ¬ (s ∈ xs ∨ s ∈ x :: seen) := by
          intro h
          rcases h with h | h
          · exact hs.1 (List.mem_cons.2 (Or.inr h))
          · rcases List.mem_cons.1 h with h | h
            · exact hs.1 (List.mem_cons.2 (Or.inl h))
            · exact hs.2 h
        rw [if_neg h1, if_neg (by push_neg; exact hs)]

theorem mem_dedupAcc (x : List Char) :
    ∀ (ss seen : List (List Char)), x ∈ dedupAcc seen ss ↔ (x ∈ ss ∧ x ∉ seen) := by
  intro ss
  induction ss with
  | nil => intro seen; simp [dedupAcc]
  | cons y ys ih =>
    intro seen
    by_cases hy : y ∈ seen
    · rw [dedupAcc, if_pos hy, ih seen]
      constructor
      · intro ⟨h1, h2⟩
        exact ⟨List.mem_cons.2 (Or.inr h1), h2⟩
      · intro ⟨h1, h2⟩
        rcases List.mem_cons.1 h1 with h1 | h1
        · exact absurd (h1 ▸ hy) h2
        · exact ⟨h1, h2⟩
    · rw [dedupAcc, if_neg hy]
      constructor
      · intro h
        rcases List.mem_cons.1 h with h | h
        · exact ⟨List.mem_cons.2 (Or.inl h), h ▸ hy⟩
        · obtain ⟨h1, h2⟩ := (ih (y :: seen)).1 h
          exact ⟨List.mem_cons.2 (Or.inr h1),
            fun hm => h2 (List.mem_cons.2 (Or.inr hm))⟩
      · intro ⟨h1, h2⟩
        rcases List.mem_cons.1 h1 with h1 | h1
        · exact h1 ▸ List.mem_cons_self y _
        · by_cases hxy : x = y
          · exact hxy ▸ List.mem_cons_self y _
          · refine List.mem_cons.2 (Or.inr ((ih (y :: seen)).2 ⟨h1, ?_⟩))
            intro hm
            rcases List.mem_cons.1 hm with hm | hm
            · exact hxy hm
            · exact h2 hm

/-- Two details lists that finalize identically: same string-extraction
status and the same deduplicated string sequence. -/
def detRel (dC dU : List JValue) : Prop :=
  (allStringsOf dC).map (fun ss => dedupAcc [] ss) =
    (allStringsOf dU).map (fun ss => dedupAcc [] ss)

theorem dedupAcc_nil_iff (ss : List (List Char)) : dedupAcc [] ss = [] ↔ ss = [] := by
  cases ss with
  | nil => simp [dedupAcc]
  | cons x xs =>
    rw [dedupAcc, if_neg (by simp)]
    simp

theorem finalizeDetails_of_detRel (dC dU : List JValue) (h : detRel dC dU) :
    finalizeDetails dC = finalizeDetails dU := by
  rw [detRel] at h
  cases dC with
  | nil =>
    cases dU with
    | nil => rfl
    | cons v rest =>
      exfalso
      simp only [allStringsOf, Option.map_some'] at h
      obtain ⟨ss, has, hd⟩ := Option.map_eq_some'.1 h.symm
      have h1 : ss = [] := (dedupAcc_nil_iff ss).1 hd
      have h2 := allStringsOf_eq _ ss has
      rw [h1] at h2
      exact nomatch h2
  | cons v rest =>
    cases dU with
    | nil =>
      exfalso
      simp only [allStringsOf, Option.map_some'] at h
      obtain ⟨ss, has, hd⟩ := Option.map_eq_some'.1 h
      have h1 : ss = [] := (dedupAcc_nil_iff ss).1 hd
      have h2 := allStringsOf_eq _ ss has
      rw [h1] at h2
      exact nomatch h2
    | cons w rest' =>
      show (allStringsOf (v :: rest)).map (fun ss => joinLines (dedupAcc [] ss)) =
        (allStringsOf (w :: rest')).map (fun ss => joinLines (dedupAcc [] ss))
      have e1 : ∀ (d : List JValue),
          (allStringsOf d).map (fun ss => joinLines (dedupAcc [] ss)) =
            ((allStringsOf d).map (fun ss => dedupAcc [] ss)).map joinLines := by
        intro d
        cases allStringsOf d <;> rfl
      rw [e1, e1, h]

theorem detRel_snoc_both (dC dU : List JValue) (v : JValue) (h : detRel dC dU) :
    detRel (dC ++ [v]) (dU ++ [v]) := by
  by_cases hv : ∃ s, v = JValue.str s
  · obtain ⟨s, rfl⟩ := hv
    rw [detRel, allStringsOf_snoc, allStringsOf_snoc]
    rw [detRel] at h
    cases h1 : allStringsOf dC with
    | none =>
      rw [h1, Option.map_none'] at h
      have h2 : allStringsOf dU = none := Option.map_eq_none'.1 h.symm
      rw [h2]
    | some ssC =>
      rw [h1, Option.map_some'] at h
      obtain ⟨ssU, h2, h3⟩ := Option.map_eq_some'.1 h.symm
      rw [h2]
      simp only [Option.map_some', Option.some.injEq]
      have hm : (s ∈ ssC) ↔ (s ∈ ssU) := by
        constructor
        · intro hs
          have hd := (mem_dedupAcc s ssC []).2 ⟨hs, by simp⟩
          rw [← h3] at hd
          exact ((mem_dedupAcc s ssU []).1 hd).1
        · intro hs
          have hd := (mem_dedupAcc s ssU []).2 ⟨hs, by simp⟩
          rw [h3] at hd
          exact ((mem_dedupAcc s ssC []).1 hd).1
      rw [dedupAcc_append_single, dedupAcc_append_single]
      have hite : (if s ∈ ssC ∨ s ∈ ([] : List (List Char)) then ([] : List (List Char))
          else [s]) = if s ∈ ssU ∨ s ∈ ([] : List (List Char)) then [] else [s] := by
        by_cases hs : s ∈ ssC
        · rw [if_pos (Or.inl hs), if_pos (Or.inl (hm.1 hs))]
        · have hs' : ¬ s ∈ ssU := fun hh => hs (hm.2 hh)
          rw [if_neg (by simp [hs]), if_neg (by simp [hs'])]
      rw [hite, ← h3]
  · have hv' : ∀ s, v ≠ JValue.str s := fun s hs => hv ⟨s, hs⟩
    rw [detRel, allStringsOf_snoc_nonstr _ _ hv', allStringsOf_snoc_nonstr _ _ hv']

theorem detRel_snoc_right_mem (dC dU : List JValue) (v : JValue) (h : detRel dC dU)
    (hv : v ∈ dU) : detRel dC (dU ++ [v]) := by
  rw [detRel] at h ⊢
  rw [h]
  by_cases hs : ∃ s, v = JValue.str s
  · obtain ⟨s, rfl⟩ := hs
    rw [allStringsOf_snoc]
    cases h1 : allStringsOf dU with
    | none => rfl
    | some ssU =>
      simp only [Option.map_some', Option.some.injEq]
      obtain ⟨s', he, hmem⟩ := mem_of_allStrings dU ssU h1 (JValue.str s) hv
      have hss : s ∈ ssU := by cases he; exact hmem
      rw [dedupAcc_append_single, if_pos (Or.inl hss)]
      simp
  · have hv' : ∀ s', v ≠ JValue.str s' := fun s' hs' => hs ⟨s', hs'⟩
    have h1 : allStringsOf dU = none := by
      cases h1 : allStringsOf dU with
      | none => rfl
      | some ssU =>
        obtain ⟨s', he, _⟩ := mem_of_allStrings dU ssU h1 v hv
        exact absurd he (hv' s')
    rw [h1, allStringsOf_snoc_nonstr _ _ hv']

theorem finalizeAll_congr (ks : List (List Char)) (hnd : ks.Nodup) :
    ∀ (m₁ m₂ : Combined), m₁.map Prod.fst = ks → m₂.map Prod.fst = ks →
      (∀ k ∈ ks, ∃ p d₁ d₂, lookupV m₁ k = some ⟨p, d₁⟩ ∧ lookupV m₂ k = some ⟨p, d₂⟩ ∧
        finalizeDetails d₁ = finalizeDetails d₂) →
      finalizeAll m₁ = finalizeAll m₂ := by
  induction ks with
  | nil =>
    intro m₁ m₂ h1 h2 _
    rw [List.map_eq_nil_iff.1 h1, List.map_eq_nil_iff.1 h2]
  | cons k ks ihk =>
    intro m₁ m₂ h1 h2 hrel
    cases m₁ with
    | nil => exact nomatch h1
    | cons kv1 r1 =>
      cases m₂ with
      | nil => exact nomatch h2
      | cons kv2 r2 =>
        obtain ⟨k1, v1⟩ := kv1
        obtain ⟨k2, v2⟩ := kv2
        simp only [List.map_cons, List.cons.injEq] at h1 h2
        obtain ⟨hk1, hr1⟩ := h1
        obtain ⟨hk2, hr2⟩ := h2
        obtain ⟨p, d₁, d₂, hl1, hl2, hfd⟩ := hrel k (List.mem_cons_self _ _)
        simp only [lookupV, if_pos hk1] at hl1
        simp only [lookupV, if_pos hk2] at hl2
        cases hl1
        cases hl2
        have hnotin : k ∉ ks := (List.nodup_cons.1 hnd).1
        have htail : ∀ k' ∈ ks, ∃ p d₁ d₂, lookupV r1 k' = some ⟨p, d₁⟩ ∧
            lookupV r2 k' = some ⟨p, d₂⟩ ∧ finalizeDetails d₁ = finalizeDetails d₂ := by
          intro k' hk'
          have hne1 : ¬ k1 = k' := fun he => hnotin ((hk1.symm.trans he) ▸ hk')
          have hne2 : ¬ k2 = k' := fun he => hnotin ((hk2.symm.trans he) ▸ hk')
          obtain ⟨p', d₁', d₂', hl1', hl2', hfd'⟩ :=
            hrel k' (List.mem_cons_of_mem _ hk')
          simp only [lookupV, if_neg hne1] at hl1'
          simp only [lookupV, if_neg hne2] at hl2'
          exact ⟨p', d₁', d₂', hl1', hl2', hfd'⟩
        have hrec := ihk (List.nodup_cons.1 hnd).2 r1 r2 hr1 hr2 htail
        simp only [finalizeAll]
        simp only [hfd, hrec, hk1, hk2]

theorem mergeResp_lookup (m : Combined) (norm : JObj)
    (hkeys : m.map Prod.fst = catalogKeys) (k : List Char) :
    lookupV (mergeResp m norm).1 k =
      (lookupV m k).map fun rv =>
        ⟨rv.present || (effAt norm catalogKeys k).1,
          rv.details ++ ((effAt norm catalogKeys k).2).toList⟩ := by
  rw [mergeResp, hkeys]
  exact mergeOver_lookup norm catalogKeys k m catalogKeys_nodup

/-- The coupling invariant between the cached run's state and the
cache-free run's running total: same catalog keys, per-feature equal
`present` flags and finalize-equivalent details with the same value sets,
and every cache entry records a fully merged, validated response of some
non-small run chunk whose contributions are already absorbed into the
running total. -/
structure CacheInv (hashFn : List Char → Int) (f : List Char → Option JValue)
    (allChunks : List (List Char)) (st : RunState) (mU : Combined) : Prop where
  keysC : (st.combined).map Prod.fst = catalogKeys
  keysU : mU.map Prod.fst = catalogKeys
  feat : ∀ k ∈ catalogKeys, ∃ p dC dU,
    lookupV st.combined k = some ⟨p, dC⟩ ∧ lookupV mU k = some ⟨p, dU⟩ ∧
    detRel dC dU ∧ (∀ v, v ∈ dC ↔ v ∈ dU)
  cacheOk : ∀ h norm, (h, norm) ∈ st.cache →
    (∃ t ∈ allChunks, hashFn t = h ∧ respToNorm (f t) = some norm ∧
      ¬ (pyStrip t).length < 100) ∧
    validObj norm = true ∧ fullMerges norm catalogKeys = true ∧
    ∀ k ∈ catalogKeys, ∀ p dC, lookupV st.combined k = some ⟨p, dC⟩ →
      (reportsTruthy norm k = true → p = true) ∧
      ∀ v, reportedDetail norm k = some v → v ∈ dC

/-- Merging the same response into two feature-related totals preserves
the relation. -/
theorem featRel_merge_both (mC mU : Combined) (norm : JObj)
    (hkC : mC.map Prod.fst = catalogKeys) (hkU : mU.map Prod.fst = catalogKeys)
    (hfeat : ∀ k ∈ catalogKeys, ∃ p dC dU,
      lookupV mC k = some ⟨p, dC⟩ ∧ lookupV mU k = some ⟨p, dU⟩ ∧
      detRel dC dU ∧ (∀ v, v ∈ dC ↔ v ∈ dU)) :
    ∀ k ∈ catalogKeys, ∃ p dC dU,
      lookupV (mergeResp mC norm).1 k = some ⟨p, dC⟩ ∧
      lookupV (mergeResp mU norm).1 k = some ⟨p, dU⟩ ∧
      detRel dC dU ∧ (∀ v, v ∈ dC ↔ v ∈ dU) := by
  intro k hk
  obtain ⟨p, dC, dU, h1, h2, h3, h4⟩ := hfeat k hk
  rw [mergeResp_lookup mC norm hkC k, mergeResp_lookup mU norm hkU k, h1, h2]
  refine ⟨p || (effAt norm catalogKeys k).1,
    dC ++ ((effAt norm catalogKeys k).2).toList,
    dU ++ ((effAt norm catalogKeys k).2).toList, by simp, by simp, ?_, ?_⟩
  · cases he : (effAt norm catalogKeys k).2 with
    | none => simpa using h3
    | some v => simpa using detRel_snoc_both dC dU v h3
  · intro v
    cases he : (effAt norm catalogKeys k).2 with
    | none => simpa using h4 v
    | some u => simp [List.mem_append, h4 v]

/-- Merging any response on top preserves a cache entry's containment in
the running total (the merge only sets flags and appends). -/
theorem cacheOk_mono (mC : Combined) (norm norm' : JObj)
    (hkC : mC.map Prod.fst = catalogKeys)
    (hold : ∀ k ∈ catalogKeys, ∀ p dC, lookupV mC k = some ⟨p, dC⟩ →
      (reportsTruthy norm' k = true → p = true) ∧
      ∀ v, reportedDetail norm' k = some v → v ∈ dC) :
    ∀ k ∈ catalogKeys, ∀ p dC, lookupV (mergeResp mC norm).1 k = some ⟨p, dC⟩ →
      (reportsTruthy norm' k = true → p = true) ∧
      ∀ v, reportedDetail norm' k = some v → v ∈ dC := by
  intro k hk p dC hl
  rw [mergeResp_lookup mC norm hkC k] at hl
  cases h0 : lookupV mC k with
  | none => rw [h0] at hl; exact nomatch hl
  | some rv =>
    rw [h0, Option.map_some'] at hl
    cases hl
    obtain ⟨hp, hd⟩ := hold k hk rv.present rv.details h0
    refine ⟨fun hrt => by rw [hp hrt]; rfl, fun v hv => List.mem_append.2 (Or.inl (hd v hv))⟩

/-- A fully merged response's contributions are contained in the total it
was just merged into. -/
theorem cacheOk_self (mC : Combined) (norm : JObj)
    (hkC : mC.map Prod.fst = catalogKeys) (hfm : fullMerges norm catalogKeys = true) :
    ∀ k ∈ catalogKeys, ∀ p dC, lookupV (mergeResp mC norm).1 k = some ⟨p, dC⟩ →
      (reportsTruthy norm k = true → p = true) ∧
      ∀ v, reportedDetail norm k = some v → v ∈ dC := by
  intro k hk p dC hl
  rw [mergeResp_lookup mC norm hkC k, effAt_fullMerges norm catalogKeys hfm k hk] at hl
  cases h0 : lookupV mC k with
  | none => rw [h0] at hl; exact nomatch hl
  | some rv =>
    rw [h0, Option.map_some'] at hl
    cases hl
    refine ⟨fun hrt => by simp [hrt], fun v hv => ?_⟩
    rw [hv]
    exact List.mem_append.2 (Or.inr (by simp))

/-- Processing one chunk preserves the coupling invariant: the cached
driver's step and the cache-free step keep the two totals feature-related,
provided the hash is injective on the run's chunks. -/
theorem cacheInv_step (hashFn : List Char → Int) (f : List Char → Option JValue)
    (allChunks : List (List Char))
    (hInj : ∀ a ∈ allChunks, ∀ b ∈ allChunks, hashFn a = hashFn b → a = b)
    (c : List Char) (hc : c ∈ allChunks) (i : Nat) (st : RunState) (mU : Combined)
    (hinv : CacheInv hashFn f allChunks st mU) :
    CacheInv hashFn f allChunks (processChunk hashFn (fun _ c' => f c') i st c)
      (processChunkNC f mU c) := by
  by_cases hhit : (lookupCache st.cache (hashFn c)).isSome = true
  · -- cache hit: the cached side skips; the uncached side re-merges the
    -- (already absorbed, fully merging) response of the identical chunk.
    obtain ⟨norm, hlk⟩ : ∃ nrm, lookupCache st.cache (hashFn c) = some nrm := by
      cases hh : lookupCache st.cache (hashFn c) with
      | none => rw [hh] at hhit; exact nomatch hhit
      | some nrm => exact ⟨nrm, rfl⟩
    obtain ⟨⟨t, ht, hht, hresp, htbig⟩, hval, hfm, hcont⟩ :=
      hinv.cacheOk _ _ (lookupCache_mem _ _ _ hlk)
    have htc : t = c := hInj t ht c hc hht
    rw [htc] at hresp htbig
    have hpc : processChunk hashFn (fun _ c' => f c') i st c = st := by
      simp [processChunk, hhit]
    have hnc : processChunkNC f mU c = (mergeResp mU norm).1 := by
      simp [processChunkNC, htbig, hresp, hval]
    refine ⟨?_, ?_, ?_, ?_⟩
    · rw [hpc]; exact hinv.keysC
    · rw [hnc, mergeResp, mergeOver_keys]; exact hinv.keysU
    · intro k hk
      rw [hpc, hnc]
      obtain ⟨p, dC, dU, h1, h2, h3, h4⟩ := hinv.feat k hk
      obtain ⟨hcp, hcd⟩ := hcont k hk p dC h1
      have hpres : (p || reportsTruthy norm k) = p := by
        cases hrt : reportsTruthy norm k with
        | false => simp
        | true => simp [hcp hrt]
      refine ⟨p, dC, dU ++ (reportedDetail norm k).toList, h1, ?_, ?_, ?_⟩
      · rw [mergeResp_lookup mU norm hinv.keysU k,
          effAt_fullMerges norm catalogKeys hfm k hk, h2]
        simp [hpres]
      · cases hrd : reportedDetail norm k with
        | none =>
          show detRel dC (dU ++ [])
          rw [List.append_nil]; exact h3
        | some v =>
          show detRel dC (dU ++ [v])
          exact detRel_snoc_right_mem dC dU v h3 ((h4 v).1 (hcd v hrd))
      · intro v
        cases hrd : reportedDetail norm k with
        | none =>
          show v ∈ dC ↔ v ∈ dU ++ []
          rw [List.append_nil]; exact h4 v
        | some u =>
          show v ∈ dC ↔ v ∈ dU ++ [u]
          constructor
          · intro hv
            exact List.mem_append.2 (Or.inl ((h4 v).1 hv))
          · intro hv
            rcases List.mem_append.1 hv with hm | hm
            · exact (h4 v).2 hm
            · rw [List.mem_singleton.1 hm]; exact hcd u hrd
    · intro h0 nrm hmem
      rw [hpc] at hmem
      rw [hpc]
      exact hinv.cacheOk h0 nrm hmem
  · by_cases hsmall : (pyStrip c).length < 100
    · -- too small: both sides skip the chunk.
      have hpc : processChunk hashFn (fun _ c' => f c') i st c = st := by
        simp [processChunk, hhit, hsmall]
      have hnc : processChunkNC f mU c = mU := by
        simp [processChunkNC, hsmall]
      rw [hpc, hnc]
      exact hinv
    · cases hresp : respToNorm (f c) with
      | none =>
        -- unparsable / non-object: both sides leave the totals unchanged.
        have hcomb : (processChunk hashFn (fun _ c' => f c') i st c).combined =
            st.combined := by
          simp [processChunk, hhit, hsmall, hresp]
        have hcache : (processChunk hashFn (fun _ c' => f c') i st c).cache =
            st.cache := by
          simp [processChunk, hhit, hsmall, hresp]
        have hnc : processChunkNC f mU c = mU := by
          simp [processChunkNC, hsmall, hresp]
        refine ⟨?_, ?_, ?_, ?_⟩
        · rw [hcomb]; exact hinv.keysC
        · rw [hnc]; exact hinv.keysU
        · intro k hk; rw [hcomb, hnc]; exact hinv.feat k hk
        · intro h0 nrm hmem
          rw [hcache] at hmem
          obtain ⟨hsrc, hv', hfm', hcont'⟩ := hinv.cacheOk h0 nrm hmem
          refine ⟨hsrc, hv', hfm', ?_⟩
          intro k hk p dC hl
          rw [hcomb] at hl
          exact hcont' k hk p dC hl
      | some norm =>
        by_cases hval : validObj norm = true
        · have hnc : processChunkNC f mU c = (mergeResp mU norm).1 := by
            simp [processChunkNC, hsmall, hresp, hval]
          have hflag : (mergeResp st.combined norm).2 = fullMerges norm catalogKeys := by
            rw [mergeResp, hinv.keysC, mergeOver_flag]
          have hfeat' := featRel_merge_both st.combined mU norm hinv.keysC hinv.keysU
            hinv.feat
          by_cases hfm : fullMerges norm catalogKeys = true
          · -- valid and fully merging: both sides merge; the cached side
            -- also inserts the response into the cache.
            rw [hfm] at hflag
            cases hmr : mergeResp st.combined norm with
            | mk m ok =>
              rw [hmr] at hflag
              have hok : ok = true := hflag
              subst hok
              have hmrfst : (mergeResp st.combined norm).1 = m := by rw [hmr]
              have hcomb : (processChunk hashFn (fun _ c' => f c') i st c).combined =
                  m := by
                simp [processChunk, hhit, hsmall, hresp, hval, hmr]
              have hcache : (processChunk hashFn (fun _ c' => f c') i st c).cache =
                  (hashFn c, norm) :: st.cache := by
                simp [processChunk, hhit, hsmall, hresp, hval, hmr]
              refine ⟨?_, ?_, ?_, ?_⟩
              · rw [hcomb, ← hmrfst, mergeResp, mergeOver_keys]; exact hinv.keysC
              · rw [hnc, mergeResp, mergeOver_keys]; exact hinv.keysU
              · intro k hk
                rw [hcomb, hnc, ← hmrfst]
                exact hfeat' k hk
              · intro h0 nrm hmem
                rw [hcache] at hmem
                rcases List.mem_cons.1 hmem with he | hold
                · injection he with he1 he2
                  refine ⟨⟨c, hc, he1.symm, by rw [he2]; exact hresp, hsmall⟩,
                    by rw [he2]; exact hval, by rw [he2]; exact hfm, ?_⟩
                  intro k hk p dC hl
                  rw [hcomb, ← hmrfst] at hl
                  rw [he2]
                  exact cacheOk_self st.combined norm hinv.keysC hfm k hk p dC hl
                · obtain ⟨hsrc, hv', hfm', hcont'⟩ := hinv.cacheOk h0 nrm hold
                  refine ⟨hsrc, hv', hfm', ?_⟩
                  intro k hk p dC hl
                  rw [hcomb, ← hmrfst] at hl
                  exact cacheOk_mono st.combined norm nrm hinv.keysC hcont' k hk p dC hl
          · -- valid but only partially merging: both sides apply the same
            -- partial merge; nothing is cached.
            have hfmf : fullMerges norm catalogKeys = false :=
              Bool.eq_false_iff.2 hfm
            rw [hfmf] at hflag
            cases hmr : mergeResp st.combined norm with
            | mk m ok =>
              rw [hmr] at hflag
              have hok : ok = false := hflag
              subst hok
              have hmrfst : (mergeResp st.combined norm).1 = m := by rw [hmr]
              have hcomb : (processChunk hashFn (fun _ c' => f c') i st c).combined =
                  m := by
                simp [processChunk, hhit, hsmall, hresp, hval, hmr]
              have hcache : (processChunk hashFn (fun _ c' => f c') i st c).cache =
                  st.cache := by
                simp [processChunk, hhit, hsmall, hresp, hval, hmr]
              refine ⟨?_, ?_, ?_, ?_⟩
              · rw [hcomb, ← hmrfst, mergeResp, mergeOver_keys]; exact hinv.keysC
              · rw [hnc, mergeResp, mergeOver_keys]; exact hinv.keysU
              · intro k hk
                rw [hcomb, hnc, ← hmrfst]
                exact hfeat' k hk
              · intro h0 nrm hmem
                rw [hcache] at hmem
                obtain ⟨hsrc, hv', hfm', hcont'⟩ := hinv.cacheOk h0 nrm hmem
                refine ⟨hsrc, hv', hfm', ?_⟩
                intro k hk p dC hl
                rw [hcomb, ← hmrfst] at hl
                exact cacheOk_mono st.combined norm nrm hinv.keysC hcont' k hk p dC hl
        · -- response fails validation: both sides skip it.
          have hcomb : (processChunk hashFn (fun _ c' => f c') i st c).combined =
              st.combined := by
            simp [processChunk, hhit, hsmall, hresp, hval]
          have hcache : (processChunk hashFn (fun _ c' => f c') i st c).cache =
              st.cache := by
            simp [processChunk, hhit, hsmall, hresp, hval]
          have hnc : processChunkNC f mU c = mU := by
            simp [processChunkNC, hsmall, hresp, hval]
          refine ⟨?_, ?_, ?_, ?_⟩
          · rw [hcomb]; exact hinv.keysC
          · rw [hnc]; exact hinv.keysU
          · intro k hk; rw [hcomb, hnc]; exact hinv.feat k hk
          · intro h0 nrm hmem
            rw [hcache] at hmem
            obtain ⟨hsrc, hv', hfm', hcont'⟩ := hinv.cacheOk h0 nrm hmem
            refine ⟨hsrc, hv', hfm', ?_⟩
            intro k hk p dC hl
            rw [hcomb] at hl
            exact hcont' k hk p dC hl

/-- The coupling invariant at the start of the run: empty cache, both
totals the all-false initial map. -/
theorem cacheInv_init (hashFn : List Char → Int) (f : List Char → Option JValue)
    (allChunks : List (List Char)) :
    CacheInv hashFn f allChunks ⟨[], initCombined, 0⟩ initCombined := by
  refine ⟨initCombined_keys, initCombined_keys, ?_, ?_⟩
  · intro k hk
    refine ⟨false, [], [], ?_, ?_, rfl, fun v => Iff.rfl⟩
    · show lookupV initCombined k = some ⟨false, []⟩
      rw [initCombined]
      exact lookupV_map_const catalogKeys (fun _ => (⟨false, []⟩ : RVerdict)) k hk
    · rw [initCombined]
      exact lookupV_map_const catalogKeys (fun _ => (⟨false, []⟩ : RVerdict)) k hk
  · intro h0 nrm hmem
    exact absurd hmem (by simp)

/-- The coupling invariant is preserved along the whole chunk list. -/
theorem runChunks_cacheInv (hashFn : List Char → Int) (f : List Char → Option JValue)
    (allChunks : List (List Char))
    (hInj : ∀ a ∈ allChunks, ∀ b ∈ allChunks, hashFn a = hashFn b → a = b)
    (cs : List (List Char)) (hsub : ∀ c ∈ cs, c ∈ allChunks) :
    ∀ (i : Nat) (st : RunState) (mU : Combined),
      CacheInv hashFn f allChunks st mU →
      CacheInv hashFn f allChunks (runChunks hashFn (fun _ c' => f c') i st cs)
        (cs.foldl (processChunkNC f) mU) := by
  induction cs with
  | nil => intro i st mU h; exact h
  | cons c cs ih =>
    intro i st mU h
    exact ih (fun c' hc' => hsub c' (List.mem_cons_of_mem _ hc')) (i + 1) _ _
      (cacheInv_step hashFn f allChunks hInj c (hsub c (List.mem_cons_self _ _)) i st mU h)

/-- C3: for every input text and every fixed deterministic per-chunk
classification response function, the pipeline with the result cache
returns the same final feature map as the pipeline with the cache removed
(hypothesis: the content hash is injective on the run's chunks, the
property Python's `hash` is relied on for), and a chunk whose hash is
already cached is resolved from the cache with no second classification
call and no state change at all. -/
theorem c3_cache_refinement (hashFn : List Char → Int) (f : List Char → Option JValue)
    (text : List Char)
    (hInj : ∀ a ∈ chunk_code_by_files chunk_size text,
      ∀ b ∈ chunk_code_by_files chunk_size text, hashFn a = hashFn b → a = b) :
    (analyze_with_llm hashFn (fun _ c => f c) text).1 =
        analyze_with_llm_nocache f text ∧
      ∀ (i : Nat) (st : RunState) (c : List Char),
        (lookupCache st.cache (hashFn c)).isSome = true →
          processChunk hashFn (fun _ c' => f c') i st c = st := by
  constructor
  · have hinv := runChunks_cacheInv hashFn f (chunk_code_by_files chunk_size text) hInj
      (chunk_code_by_files chunk_size text) (fun c h => h) 0 ⟨[], initCombined, 0⟩
      initCombined (cacheInv_init hashFn f (chunk_code_by_files chunk_size text))
    have hres := finalizeAll_congr catalogKeys catalogKeys_nodup _ _
      hinv.keysC hinv.keysU (fun k hk => by
        obtain ⟨p, dC, dU, h1, h2, h3, _⟩ := hinv.feat k hk
        exact ⟨p, dC, dU, h1, h2, finalizeDetails_of_detRel dC dU h3⟩)
    simpa [analyze_with_llm, analyze_with_llm_nocache] using hres
  · intro i st c h
    simp [processChunk, h]

/-- Witness for C3 at a concrete input: the empty text (one empty chunk)
with a constant hash, which is injective on that one-chunk run. -/
theorem c3_witness :
    (analyze_with_llm (fun _ => (0 : Int)) (fun _ _ => (none : Option JValue)) []).1 =
      analyze_with_llm_nocache (fun _ => (none : Option JValue)) [] :=
  (c3_cache_refinement (fun _ => 0) (fun _ => none) [] (by decide)).1

/-! ### C9: `analyze_project` -/

/-- `self.directory_features` (lines 27-35): directory patterns per
infrastructure feature. -/
def directory_features : List (List Char × List (List Char)) :=
  [("already_deployed", ["docker-compose.yml", "kubernetes", "deploy.sh", ".env.production"]),
   ("has_frontend", ["src/frontend", "public", "index.html", "components", "pages"]),
   ("has_cicd", [".github/workflows", "jenkins", "gitlab-ci.yml", ".travis.yml"]),
   ("multiple_environments", [".env.", "config/environments"]),
   ("uses_containerization", ["dockerfile", "docker-compose", "kubernetes"]),
   ("uses_iac", ["terraform", "cloudformation", "pulumi", "ansible"]),
   ("high_availability", ["kubernetes", "docker-swarm", "load-balancer"])].map
    fun kv => (kv.1.toList, kv.2.map String.toList)

/-- `FeatureAnalyzer.analyze_directory_structure` (lines 266-279):
case-insensitive substring search of each pattern in the directory
listing. -/
def analyze_directory_structure (directory_content : List Char) :
    List (List Char × Bool) :=
  directory_features.map fun kv =>
    (kv.1, kv.2.any fun p => containsSub (pyLower p) (pyLower directory_content))

/-- The feature-dictionary attributes `__init__` (lines 10-52) assigns on
the instance, keyed by attribute name and holding the dictionary's key
list.  Lines 27-35 assign `directory_features` and lines 38-52
`llm_features`; no statement in the class assigns `self.features`, so a
lookup of `"features"` in this table is `none` (Python: `AttributeError`). -/
def featureDictAttrs : List (List Char × List (List Char)) :=
  [("directory_features".toList, directory_features.map Prod.fst),
   ("llm_features".toList, catalogKeys)]

/-- `dir_features.get(feature, False)` at line 251. -/
def dictGetBool (m : List (List Char × Bool)) (k : List Char) : Bool :=
  match lookupV m k with
  | some b => b
  | none => false

/-- The combine loop at lines 249-258, run over a given key list: per
feature the OR of the directory flag and the LLM `present` flag, the
directory flag itself, and the LLM verdict (`llm_analysis.get(feature, {})`
modelled as the optional lookup). -/
def combineFeatures (dirF : List (List Char × Bool)) (M : Final)
    (ks : List (List Char)) : List (List Char × (Bool × Bool × Option FVerdict)) :=
  ks.map fun k =>
    let dir_result := dictGetBool dirF k
    let llm_result := match lookupV M k with
      | some fv => fv.present
      | none => false
    (k, (dir_result || llm_result, dir_result, lookupV M k))

/-- `FeatureAnalyzer.analyze_project` (lines 241-264): directory analysis,
LLM analysis, then the combine loop headed by `self.features.keys()` at
line 250.  `__init__` never assigns a `features` attribute, so that
attribute lookup fails (`AttributeError`, the `none` branch of the
`featureDictAttrs` lookup) before the result dict at lines 260-264 is
built; a `none` from `analyze_with_llm` (its uncaught finalize
`TypeError`) also propagates. -/
def analyze_project (hashFn : List Char → Int)
    (oracle : Nat → List Char → Option JValue)
    (directory_content code_content : List Char) :
    Option (List (List Char × Bool) × Final ×
      List (List Char × (Bool × Bool × Option FVerdict))) :=
  let dir_features := analyze_directory_structure directory_content
  match (analyze_with_llm hashFn oracle code_content).1 with
  | none => none
  | some M =>
    match lookupV featureDictAttrs "features".toList with
    | none => none
    | some ks => some (dir_features, M, combineFeatures dir_features M ks)

/-- C9: `analyze_project` never returns a result — for every directory
content, code content, hash function and classifier it raises (the
`AttributeError` from the undefined `self.features` at line 250, or,
earlier, the finalize `TypeError`), so in particular it never produces the
dict with keys `directory_analysis`, `llm_analysis`,
`combined_analysis`. -/
theorem c9_analyze_project_raises (hashFn : List Char → Int)
    (oracle : Nat → List Char → Option JValue)
    (directory_content code_content : List Char) :
    analyze_project hashFn oracle directory_content code_content = none := by
  simp only [analyze_project]
  cases h : (analyze_with_llm hashFn oracle code_content).1 with
  | none => rfl
  | some M => rfl
